import Mathlib

/-!
Verification of `repo_map_generator.py` (cyanheads/repo-map-generator).

Strings are modelled as `List Char` (`Str`).  The per-file map-insertion of
`update_files_with_tree` (source lines 215-252) builds the encoded block
(lines 221-226), then searches for the pattern
`({start} Repository Map:.*?{middle} File:.*?\n)` optionally followed by
`({end}\s*)` under `re.DOTALL` (lines 228-233), and replaces the first match
via `re.subn(pattern, updated_map, content, count=1, ...)` (line 235) —
note Python treats `updated_map` as a replacement *template*.  The regex
engine's leftmost, lazy-`.*?`, greedy-`\s*` backtracking is embedded below
by explicit least-index searches, which coincide with the backtracking
order for this pattern shape (each `.*?` is advanced to successive
occurrences of the following literal, in lexicographic order).
-/

abbrev Str := List Char

/-- `pat` occurs in `c` starting at index `i`. -/
def isPrefixAt (pat c : Str) (i : Nat) : Bool :=
  pat.isPrefixOf (c.drop i)

/-- Least index `i` with `start ≤ i < start + fuel` satisfying `P`. -/
def firstIdxFrom (P : Nat → Bool) (start fuel : Nat) : Option Nat :=
  match fuel with
  | 0 => none
  | fuel' + 1 => if P start then some start else firstIdxFrom P (start + 1) fuel'

/-- The character set of a str-pattern `\s`: the full Unicode whitespace
set of `Py_UNICODE_ISSPACE` — U+0009–U+000D, U+001C–U+0020, U+0085,
U+00A0, U+1680, U+2000–U+200A, U+2028, U+2029, U+202F, U+205F and
U+3000 — not just the six ASCII whitespace characters. -/
def isPySpace (ch : Char) : Bool :=
  let n := ch.toNat
  (decide (9 ≤ n) && decide (n ≤ 13)) || (decide (28 ≤ n) && decide (n ≤ 32)) ||
  n == 133 || n == 160 || n == 5760 ||
  (decide (8192 ≤ n) && decide (n ≤ 8202)) ||
  n == 8232 || n == 8233 || n == 8239 || n == 8287 || n == 12288

/-- Length of the maximal run of `\s` characters of `c` starting at `q`
(the greedy `\s*` at the end of the pattern). -/

def wsLen (c : Str) (q : Nat) : Nat :=
  ((c.drop q).takeWhile isPySpace).length

/-- Python `str.split('\n')` (line 222 iterates over `tree.split('\n')`). -/
def splitLines : Str → List Str
  | [] => [[]]
  | ch :: rest =>
    if ch = '\n' then [] :: splitLines rest
    else
      match splitLines rest with
      | l :: ls => (ch :: l) :: ls
      | [] => [[ch]]

/-- A comment style triple `(comment_start, comment_middle, comment_end)`
from `COMMENT_STYLES` / `DEFAULT_COMMENT_STYLE` (lines 89-129). -/
structure MStyle where
  cs : Str
  cm : Str
  ce : Str
deriving DecidableEq, Repr

/-- The literal text `{comment_start} Repository Map:` opening the pattern
and the block (lines 221 and 229). -/
def patStart (st : MStyle) : Str := st.cs ++ " Repository Map:".toList

/-- The literal text `{comment_middle} File:` of the pattern (line 229). -/
def patFile (st : MStyle) : Str := st.cm ++ " File:".toList

/-- The tree body of the block: one `{comment_middle} {line}\n` per line of
the tree (lines 222-223). -/
def treeBody (st : MStyle) (tree : Str) : Str :=
  ((splitLines tree).map (fun l => st.cm ++ [' '] ++ l ++ ['\n'])).flatten

/-- The `{comment_middle} File: {filename}\n` line (line 224). -/
def fileLine (st : MStyle) (fname : Str) : Str :=
  patFile st ++ [' '] ++ fname ++ ['\n']

/-- The optional trailing `{comment_end}\n` (lines 225-226; Python string
truthiness: added iff `comment_end` is nonempty). -/
def endPart (st : MStyle) : Str :=
  if st.ce = [] then [] else st.ce ++ ['\n']

/-- `updated_map` of lines 221-226. -/
def encodeBlock (st : MStyle) (tree fname : Str) : Str :=
  patStart st ++ ['\n'] ++ treeBody st tree ++ fileLine st fname ++ endPart st

/-- Index inside the encoded block at which its `File:` delimiter starts. -/
def fileLinePos (st : MStyle) (tree : Str) : Nat :=
  (patStart st).length + 1 + (treeBody st tree).length

/-- Length of group 1 of the pattern when it matches the encoded block:
everything up to and including the newline of the `File:` line. -/
def coreLen (st : MStyle) (tree fname : Str) : Nat :=
  fileLinePos st tree + (patFile st).length + 1 + fname.length + 1

/-- Result of a successful `re.search` of the map pattern: start of the
match, end of group 1 (one past the `File:` line's newline) and end of the
whole match (equal to `g1stop` when `comment_end` is empty, otherwise also
covering `{comment_end}` and the greedy `\s*`). -/
structure MatchSpan where
  i : Nat
  g1stop : Nat
  stop : Nat
deriving DecidableEq, Repr

/-- Lazy `.*?\n` followed by the optional end-marker: the engine tries
newline positions `k ≥ q` in increasing order and, when `comment_end` is
nonempty, requires it to follow the newline; the first `k` passing both
tests is kept. -/
def findK (e c : Str) (q : Nat) : Option Nat :=
  firstIdxFrom
    (fun k => isPrefixAt ['\n'] c k && (e.isEmpty || isPrefixAt e c (k + 1)))
    q (c.length + 1 - q)

/-- Lazy `.*?{middle} File:`: the engine tries occurrences `j ≥ minJ` of the
`File:` literal in increasing order, keeping the first one for which the
rest of the pattern can match; returns that `j` with its newline `k`. -/
def findJ (s2 e c : Str) (minJ : Nat) : Option (Nat × Nat) :=
  match firstIdxFrom
      (fun j => isPrefixAt s2 c j && (findK e c (j + s2.length)).isSome)
      minJ (c.length + 1 - minJ) with
  | none => none
  | some j =>
    match findK e c (j + s2.length) with
    | none => none
    | some k => some (j, k)

/-- Attempt to match the whole pattern at position `i` of `c`. -/
def matchAt (st : MStyle) (c : Str) (i : Nat) : Option MatchSpan :=
  if isPrefixAt (patStart st) c i then
    match findJ (patFile st) st.ce c (i + (patStart st).length) with
    | none => none
    | some (_, k) =>
      some ⟨i, k + 1,
        if st.ce = [] then k + 1
        else k + 1 + st.ce.length + wsLen c (k + 1 + st.ce.length)⟩
  else none

/-- `re.search(map_pattern, content, re.DOTALL)`: leftmost match. -/
def reSearch (st : MStyle) (c : Str) : Option MatchSpan :=
  match firstIdxFrom (fun i => (matchAt st c i).isSome) 0 (c.length + 1) with
  | none => none
  | some i => matchAt st c i

/-- Python replacement-template expansion (the semantics `re.subn` applies
to `updated_map` at line 235): `\` + digits is a group backreference
(octal escape when it starts with `0`), `\g<number>` likewise, known ASCII
escapes produce control characters, `\` + other ASCII letter raises
`re.error` (modelled as `none`), and `\` + punctuation is kept verbatim. -/
def isAsciiDigit (ch : Char) : Bool := '0' ≤ ch && ch ≤ '9'

def isAsciiLetter (ch : Char) : Bool :=
  ('a' ≤ ch && ch ≤ 'z') || ('A' ≤ ch && ch ≤ 'Z')

def digitVal (ch : Char) : Nat := ch.toNat - '0'.toNat

/-- Look up group `n` in the group list, whose head is group 0 (the whole
match); `none` models `re.error` for an invalid group reference. -/
def groupRef (groups : List Str) (n : Nat) : Option Str := groups.get? n

def isOctal (ch : Char) : Bool := '0' <= ch && ch <= '7'

/-- Handle one backslash escape: `rest` is the template text after the
backslash; returns the produced text and the number of characters of
`rest` consumed, or `none` for `re.error`. -/
def expandEsc (groups : List Str) (rest : Str) : Option (Str × Nat) :=
  match rest with
  | [] => none
  | d :: rest' =>
    if d = '\\' then some (['\\'], 1)
    else if d = '0' then
      -- octal escape: up to two further octal digits
      match rest' with
      | o1 :: o2 :: _ =>
        if isOctal o1 && isOctal o2 then
          some ([Char.ofNat (8 * digitVal o1 + digitVal o2)], 3)
        else if isOctal o1 then some ([Char.ofNat (digitVal o1)], 2)
        else some ([Char.ofNat 0], 1)
      | [o1] =>
        if isOctal o1 then some ([Char.ofNat (digitVal o1)], 2)
        else some ([Char.ofNat 0], 1)
      | [] => some ([Char.ofNat 0], 1)
    else if isAsciiDigit d then
      -- three octal digits are an octal escape (error above 0o377);
      -- otherwise a group reference of up to two digits
      match rest' with
      | d2 :: d3 :: _ =>
        if isOctal d && isOctal d2 && isOctal d3 then
          let v := 64 * digitVal d + 8 * digitVal d2 + digitVal d3
          if v ≤ 255 then some ([Char.ofNat v], 3) else none
        else if isAsciiDigit d2 then
          (groupRef groups (10 * digitVal d + digitVal d2)).map (fun g => (g, 2))
        else (groupRef groups (digitVal d)).map (fun g => (g, 1))
      | [d2] =>
        if isAsciiDigit d2 then
          (groupRef groups (10 * digitVal d + digitVal d2)).map (fun g => (g, 2))
        else (groupRef groups (digitVal d)).map (fun g => (g, 1))
      | [] => (groupRef groups (digitVal d)).map (fun g => (g, 1))
    else if d = 'g' then
      -- \g<number>; named groups do not occur in this pattern, so a
      -- non-numeric name is an error, as is malformed syntax
      match rest' with
      | '<' :: r2 =>
        let digits := r2.takeWhile isAsciiDigit
        match r2.drop digits.length with
        | '>' :: _ =>
          if digits = [] then none
          else
            (groupRef groups (digits.foldl (fun a ch => 10 * a + digitVal ch) 0)).map
              (fun g => (g, digits.length + 3))
        | _ => none
      | _ => none
    else if d = 'n' then some (['\n'], 1)
    else if d = 't' then some (['\t'], 1)
    else if d = 'r' then some (['\r'], 1)
    else if d = 'a' then some (['\x07'], 1)
    else if d = 'b' then some (['\x08'], 1)
    else if d = 'f' then some (['\x0c'], 1)
    else if d = 'v' then some (['\x0b'], 1)
    else if isAsciiLetter d then none
    else some (['\\', d], 1)

/-- Template expansion driver; the fuel argument (instantiated with the
template's length, which every recursive call keeps sufficient) makes the
recursion structural so that it evaluates inside the kernel. -/
def expandTemplateAux (groups : List Str) : Nat → Str → Option Str
  | _, [] => some []
  | 0, _ :: _ => none
  | fuel + 1, ch :: rest =>
    if ch = '\\' then
      match expandEsc groups rest with
      | none => none
      | some (out, used) =>
        (expandTemplateAux groups fuel (rest.drop used)).map (fun t => out ++ t)
    else (expandTemplateAux groups fuel rest).map (fun t => ch :: t)

def expandTemplate (groups : List Str) (tpl : Str) : Option Str :=
  expandTemplateAux groups tpl.length tpl

/-- The groups captured by a match of the map pattern: group 0 is the
whole match, group 1 the span up to `g1stop`, group 2 (present only when
`comment_end` is nonempty) the end-marker-plus-whitespace span. -/
def matchGroups (st : MStyle) (c : Str) (m : MatchSpan) : List Str :=
  [(c.drop m.i).take (m.stop - m.i), (c.drop m.i).take (m.g1stop - m.i)] ++
    (if st.ce = [] then [] else [(c.drop m.g1stop).take (m.stop - m.g1stop)])

/-- Lines 228-240 of `update_files_with_tree`: compute `updated_content`
from `content`.  `none` models a raised `re.error` (caught by the `except`
at line 253).  When the pattern is found, `re.subn(..., count=1)` replaces
the first match with the *template-expanded* `updated_map`; otherwise the
block is prepended.  (The `n == 0` fallback at line 236 is dead code: the
`re.search` guard guarantees a substitution.) -/
def applyUpdate (st : MStyle) (tree fname content : Str) : Option Str :=
  let B := encodeBlock st tree fname
  match reSearch st content with
  | some m =>
    match expandTemplate (matchGroups st content m) B with
    | none => none
    | some repl => some (content.take m.i ++ repl ++ content.drop m.stop)
  | none => some (B ++ content)

/-- The same operation with the freshly encoded block inserted verbatim
(what the specification describes): used to compare against the template
behaviour of `applyUpdate`. -/
def applyLiteral (st : MStyle) (tree fname content : Str) : Str :=
  let B := encodeBlock st tree fname
  match reSearch st content with
  | some m => content.take m.i ++ B ++ content.drop m.stop
  | none => B ++ content

/-!
## PathFilter (`should_exclude`, lines 157-171)

Paths are modelled as lists of segments; `isFile` stands for the
filesystem-dependent `path.is_file()`.  `path.relative_to(relative_to)`
raises `ValueError` when the root is not a prefix of the path, modelled by
`none`.  `fnmatch.fnmatch` on POSIX does not case-fold by itself; the code
lowercases both sides explicitly, which is modelled by `pyLower` (ASCII
case folding — all patterns in the exclusion sets are ASCII).
-/

def pyLower (ch : Char) : Char :=
  if 'A' ≤ ch && ch ≤ 'Z' then Char.ofNat (ch.toNat + 32) else ch

def lowerStr (s : Str) : Str := s.map pyLower

/-- Index (within the text following `[`) of the `]` closing a bracket
class, per `fnmatch.translate`: an initial `!` and an immediately
following `]` are part of the class body. -/
def classSpan (l : Str) : Option Nat :=
  let st0 := if l.head? = some '!' then 1 else 0
  let st1 := if (l.drop st0).head? = some ']' then st0 + 1 else st0
  firstIdxFrom (fun j => isPrefixAt [']'] l j) st1 (l.length + 1 - st1)

/-- Membership of a character in a bracket-class body: `a-b` is a code
point range (an inverted range matches nothing, as in modern
`fnmatch.translate`), any other character is a literal. -/
def classMatch : Str → Char → Bool
  | a :: '-' :: b :: rest, c => (decide (a.toNat ≤ c.toNat) && decide (c.toNat ≤ b.toNat)) || classMatch rest c
  | a :: rest, c => a == c || classMatch rest c
  | [], _ => false

/-- `fnmatch.fnmatchcase`-style glob matching: `*`, `?`, bracket classes
with `!` negation, everything else literal; an unterminated `[` is a
literal `[`.  The fuel argument (instantiated with the total length, which
every recursive call keeps sufficient) makes the recursion structural. -/
def globMatchAux : Nat → Str → Str → Bool
  | _, [], s => s.isEmpty
  | 0, _ :: _, _ => false
  | fuel + 1, '*' :: ps, [] => globMatchAux fuel ps []
  | fuel + 1, '*' :: ps, ch :: cs =>
    globMatchAux fuel ps (ch :: cs) || globMatchAux fuel ('*' :: ps) cs
  | fuel + 1, '?' :: ps, _ :: cs => globMatchAux fuel ps cs
  | fuel + 1, '[' :: ps, s =>
    match classSpan ps with
    | none =>
      match s with
      | c :: cs => ('[' == c) && globMatchAux fuel ps cs
      | [] => false
    | some j =>
      let neg := ps.head? == some '!'
      let stuff := (ps.take j).drop (if neg then 1 else 0)
      match s with
      | c :: cs => (neg != classMatch stuff c) && globMatchAux fuel (ps.drop (j + 1)) cs
      | [] => false
  | fuel + 1, a :: ps, c :: cs => a == c && globMatchAux fuel ps cs
  | _ + 1, _ :: _, [] => false

def globMatch (p s : Str) : Bool := globMatchAux (p.length + s.length) p s

/-- `fnmatch.fnmatch(cand.lower(), pat.lower())` as called at lines 164
and 169. -/
def fnmatchLower (pat cand : Str) : Bool :=
  globMatch (lowerStr pat) (lowerStr cand)

def EXCLUDE_FILES : List Str := [
  ".gitignore".toList, ".gitattributes".toList, ".hgignore".toList, ".svnignore".toList,
  "requirements.txt".toList, "*LICENSE*".toList, "setup.py".toList, "setup.cfg".toList,
  "pyproject.toml".toList, "Pipfile".toList, "Pipfile.lock".toList, "*README*".toList,
  "package.json".toList, "package-lock.json".toList, "yarn.lock".toList,
  "composer.json".toList, "composer.lock".toList,
  ".editorconfig".toList, ".eslintrc".toList, ".prettierrc".toList, ".stylelintrc".toList,
  "*.pyc".toList, "*.pyo".toList, "*.pyd".toList, "*.so".toList, "*.dll".toList,
  "*.exe".toList, "*.obj".toList, "*.o".toList,
  "*.a".toList, "*.lib".toList, "*.egg".toList, "*.whl".toList,
  "*.log".toList, "*.sql".toList, "*.sqlite".toList, "*.db".toList,
  ".DS_Store".toList, "Thumbs.db".toList, "desktop.ini".toList,
  "*~".toList, "*.swp".toList, "*.swo".toList, "*.tmp".toList, "temp_*".toList,
  "__init__.py".toList, "MANIFEST.in".toList,
  "node_modules".toList,
  "*.iml".toList, "*.ipr".toList, "*.iws".toList,
  "*.bak".toList, "*.cache".toList, "*.pid".toList,
  "*.png".toList, "*.jpg".toList, "*.jpeg".toList, "*.gif".toList, "*.bmp".toList,
  "*.svg".toList, "*.tiff".toList, "*.ico".toList,
  "*.mp4".toList, "*.mkv".toList, "*.avi".toList, "*.mov".toList, "*.wmv".toList,
  "*.flv".toList, "*.webm".toList, "*.m4v".toList,
  "*.mp3".toList, "*.wav".toList, "*.flac".toList, "*.aac".toList, "*.ogg".toList,
  "*.wma".toList, "*.m4a".toList,
  "*.pdf".toList, "*.doc".toList, "*.docx".toList, "*.ppt".toList, "*.pptx".toList,
  "*.xls".toList, "*.xlsx".toList, "*.odt".toList, "*.ods".toList,
  "*.zip".toList, "*.tar".toList, "*.gz".toList, "*.rar".toList, "*.7z".toList,
  "*.bz2".toList, "*.xz".toList,
  "*.psd".toList, "*.ai".toList, "*.eps".toList, "*.indd".toList, "*.fla".toList,
  "*.swf".toList,
  "*aider*".toList, "*.tree_map.*".toList, "repo_map.md".toList, "repo_map_gen*".toList]

def EXCLUDE_DIRS : List Str := [
  ".git".toList, ".svn".toList, ".hg".toList, "CVS".toList,
  "venv".toList, "env".toList, ".env".toList, "virtualenv".toList, ".venv".toList,
  ".conda".toList, "anaconda".toList, "miniconda".toList,
  "build".toList, "dist".toList, "target".toList, "out".toList,
  "__pycache__".toList, ".mypy_cache".toList, ".pytest_cache".toList, ".ruff_cache".toList,
  ".tox".toList, ".eggs".toList, ".cache".toList,
  "node_modules".toList, "bower_components".toList, "jspm_packages".toList,
  "vendor".toList, "packages".toList,
  ".idea".toList, ".vscode".toList, ".vs".toList, ".eclipse".toList, ".settings".toList,
  ".sublime-project".toList, ".sublime-workspace".toList,
  "docs".toList, "_build".toList, "site".toList, "sphinx-docs".toList,
  "htmlcov".toList, ".coverage".toList, ".coveragerc".toList,
  "logs".toList, "__logs__".toList,
  "tmp".toList, "temp".toList,
  "$RECYCLE.BIN".toList, "System Volume Information".toList,
  ".sass-cache".toList, ".gradle".toList, ".m2".toList,
  "media".toList, "public".toList, "static".toList, "assets".toList,
  "*aider*".toList, ".tree_map_backup".toList]

/-- `path.name`: the final path segment. -/
def pathName (path : List Str) : Str := path.getLastD []

/-- The body of `should_exclude` after a successful `relative_to`:
every relative segment is tested against the directory globs, and for a
file its (full-path) base name is additionally tested against the file
globs (lines 162-171). -/
def shouldExcludeParts (parts : List Str) (isFile : Bool) (name : Str) : Bool :=
  parts.any (fun part => EXCLUDE_DIRS.any (fun pat => fnmatchLower pat part))
  || (isFile && EXCLUDE_FILES.any (fun pat => fnmatchLower pat name))

/-- `should_exclude(path, relative_to)` (lines 157-171); `none` models the
`ValueError` that `path.relative_to` raises when `root` is not a prefix
of `path`. -/
def should_exclude (path root : List Str) (isFile : Bool) : Option Bool :=
  if root.isPrefixOf path then
    some (shouldExcludeParts (path.drop root.length) isFile (pathName path))
  else none

/-!
## CommentStyleRegistry (`get_comment_style`, lines 89-129, 173-175)
-/

def DEFAULT_COMMENT_STYLE : MStyle := ⟨"#".toList, "#".toList, []⟩

def COMMENT_STYLES : List (Str × MStyle) := [
  ("py".toList, ⟨"#".toList, "#".toList, []⟩),
  ("js".toList, ⟨"//".toList, "//".toList, []⟩),
  ("java".toList, ⟨"//".toList, "//".toList, []⟩),
  ("c".toList, ⟨"//".toList, "//".toList, []⟩),
  ("cpp".toList, ⟨"//".toList, "//".toList, []⟩),
  ("cs".toList, ⟨"//".toList, "//".toList, []⟩),
  ("go".toList, ⟨"//".toList, "//".toList, []⟩),
  ("rs".toList, ⟨"//".toList, "//".toList, []⟩),
  ("swift".toList, ⟨"//".toList, "//".toList, []⟩),
  ("kt".toList, ⟨"//".toList, "//".toList, []⟩),
  ("scala".toList, ⟨"//".toList, "//".toList, []⟩),
  ("rb".toList, ⟨"#".toList, "#".toList, []⟩),
  ("pl".toList, ⟨"#".toList, "#".toList, []⟩),
  ("sh".toList, ⟨"#".toList, "#".toList, []⟩),
  ("bash".toList, ⟨"#".toList, "#".toList, []⟩),
  ("zsh".toList, ⟨"#".toList, "#".toList, []⟩),
  ("yaml".toList, ⟨"#".toList, "#".toList, []⟩),
  ("yml".toList, ⟨"#".toList, "#".toList, []⟩),
  ("toml".toList, ⟨"#".toList, "#".toList, []⟩),
  ("ini".toList, ⟨";".toList, ";".toList, []⟩),
  ("cfg".toList, ⟨";".toList, ";".toList, []⟩),
  ("conf".toList, ⟨"#".toList, "#".toList, []⟩),
  ("sql".toList, ⟨"--".toList, "--".toList, []⟩),
  ("lua".toList, ⟨"--".toList, "--".toList, []⟩),
  ("hs".toList, ⟨"--".toList, "--".toList, []⟩),
  ("md".toList, ⟨"<!--".toList, " *".toList, "-->".toList⟩),
  ("html".toList, ⟨"<!--".toList, " *".toList, "-->".toList⟩),
  ("htm".toList, ⟨"<!--".toList, " *".toList, "-->".toList⟩),
  ("xml".toList, ⟨"<!--".toList, " *".toList, "-->".toList⟩),
  ("css".toList, ⟨"/*".toList, " *".toList, "*/".toList⟩),
  ("scss".toList, ⟨"/*".toList, " *".toList, "*/".toList⟩),
  ("less".toList, ⟨"/*".toList, " *".toList, "*/".toList⟩),
  ("php".toList, ⟨"/*".toList, " *".toList, "*/".toList⟩),
  ("jsx".toList, ⟨"/*".toList, " *".toList, "*/".toList⟩),
  ("tsx".toList, ⟨"/*".toList, " *".toList, "*/".toList⟩)]

/-- `file_extension.lstrip('.')`. -/
def lstripDots (s : Str) : Str := s.dropWhile (fun ch => ch = '.')

def get_comment_style (ext : Str) : MStyle :=
  (COMMENT_STYLES.lookup (lstripDots ext)).getD DEFAULT_COMMENT_STYLE

/-- `Path.suffix`: `'.' + final dot-part` of the name unless the last dot
is the first character or there is no dot. -/
def pySuffix (name : Str) : Str :=
  match firstIdxFrom (fun r => isPrefixAt ['.'] name.reverse r) 0 name.length with
  | none => []
  | some r =>
    let i := name.length - 1 - r
    if 0 < i && i < name.length - 1 then name.drop i else []

/-!
## UpdateOrchestrator (`update_files_with_tree`, lines 186-258)

Each path yielded by `startpath.rglob('*')` is a `PyFile`: its segments
relative to `startpath`, the filesystem facts (`isFile`, `isBinary`) and
fault injection for the fallible steps (`backupFails` for an exception
inside `create_backup` — caught there, line 320; `readFails` for the
`open(..., 'r')` of line 215; `writeFails` for the write of lines
243-244).  A failing write is NOT atomic: `open(filepath, 'w')`
truncates the file before `f.write` runs, so `written` records what the
failure leaves behind — `none` when `open` itself raised (content
unchanged) and `some k` when the file was truncated and `k` characters
of the new content were persisted before the raise.
-/

structure PyFile where
  segs : List Str
  isFile : Bool
  isBinary : Bool
  backupFails : Bool
  readFails : Bool
  writeFails : Bool
  written : Option Nat
  content : Str
deriving DecidableEq, Repr

def fileName (f : PyFile) : Str := f.segs.getLastD []

/-- `get_comment_style(filepath.suffix)` (line 218). -/
def styleOf (f : PyFile) : MStyle := get_comment_style (pySuffix (fileName f))

structure MState where
  files_processed : Nat
  files_modified : Nat
  files_skipped : Nat
  errors : Nat
deriving DecidableEq, Repr

/-- One iteration of the `rglob` loop (lines 188-256).  Returns the file's
new state, the new metrics and whether the path was appended to
`modified_files`.  `should_exclude(filepath, startpath)` never raises here
because every walked path is below `startpath`, so the post-`relative_to`
body `shouldExcludeParts` is called directly. -/
def processOne (tree : Str) (backupEnabled : Bool) (f : PyFile) (ms : MState) :
    PyFile × MState × Bool :=
  if shouldExcludeParts f.segs f.isFile (fileName f) then
    (f, { ms with files_skipped := ms.files_skipped + 1 }, false)
  else if f.isFile then
    let ms1 := { ms with files_processed := ms.files_processed + 1 }
    if f.isBinary then
      (f, { ms1 with files_skipped := ms1.files_skipped + 1 }, false)
    else
      -- try-block of lines 204-252; `create_backup` catches its own
      -- exceptions (incrementing `errors`) and the loop proceeds
      let ms2 := if backupEnabled && f.backupFails then
          { ms1 with errors := ms1.errors + 1 } else ms1
      if f.readFails then
        (f, { ms2 with errors := ms2.errors + 1,
                       files_skipped := ms2.files_skipped + 1 }, false)
      else
        match applyUpdate (styleOf f) tree (fileName f) f.content with
        | none =>
          -- re.error from the template expansion, caught at line 253
          (f, { ms2 with errors := ms2.errors + 1,
                         files_skipped := ms2.files_skipped + 1 }, false)
        | some u =>
          if u ≠ f.content then
            if f.writeFails then
              -- open(filepath, 'w') truncates before f.write: a raise
              -- leaves a prefix of the new content (or, when open itself
              -- raised, the original content)
              ({ f with content := match f.written with
                  | none => f.content
                  | some k => u.take k },
               { ms2 with errors := ms2.errors + 1,
                          files_skipped := ms2.files_skipped + 1 }, false)
            else
              ({ f with content := u },
               { ms2 with files_modified := ms2.files_modified + 1 }, true)
          else
            (f, { ms2 with files_skipped := ms2.files_skipped + 1 }, false)
  else (f, ms, false)

/-- The whole loop of `update_files_with_tree`: final file states, final
metrics, and the returned `modified_files` list (as segment paths). -/
def updateFiles (tree : Str) (be : Bool) :
    List PyFile → MState → List PyFile × MState × List (List Str)
  | [], ms => ([], ms, [])
  | f :: fs, ms =>
    let r := processOne tree be f ms
    let rest := updateFiles tree be fs r.2.1
    (r.1 :: rest.1, rest.2.1, (if r.2.2 then [f.segs] else []) ++ rest.2.2)

/-- Pure condition under which `processOne` takes the write branch. -/
def rewrites (tree : Str) (f : PyFile) : Bool :=
  !shouldExcludeParts f.segs f.isFile (fileName f) && f.isFile && !f.isBinary &&
  !f.readFails &&
  (match applyUpdate (styleOf f) tree (fileName f) f.content with
   | none => false
   | some u => decide (u ≠ f.content) && !f.writeFails)

/-- The file state `processOne` leaves behind (independent of metrics). -/
def fileAfter (tree : Str) (be : Bool) (f : PyFile) : PyFile :=
  (processOne tree be f ⟨0, 0, 0, 0⟩).1

/-- Pure condition for the `"No changes needed"` skip branch of
lines 250-252. -/
def skipNoChange (tree : Str) (f : PyFile) : Bool :=
  !shouldExcludeParts f.segs f.isFile (fileName f) && f.isFile && !f.isBinary &&
  !f.readFails &&
  (applyUpdate (styleOf f) tree (fileName f) f.content == some f.content)

/-!
## TreeRenderer trailing-connector pass (`generate_tree`, lines 357-368)

The pass collects the maximal run of trailing lines that start with
`'└── '` (iterating `reversed(tree)` with `break`), then for
`i, line in enumerate(reversed(last_lines))` assigns
`tree[len(tree)-i-1] = '    '*i + '└── ' + line.split('└── ', 1)[1]`:
the `i`-th line of the run *counting forward* is written to the `i`-th
slot *from the end*, i.e. the run is reversed in place.
-/

def connector : Str := "└── ".toList

def trailingRunLen (tree : List Str) : Nat :=
  (tree.reverse.takeWhile (fun l => connector.isPrefixOf l)).length

def indentSpaces (n : Nat) : Str := List.replicate n ' '

def normalizeTrailing (tree : List Str) : List Str :=
  if tree.length > 1 then
    let r := trailingRunLen tree
    let keep := tree.take (tree.length - r)
    let run := tree.drop (tree.length - r)
    keep ++
      (run.enum.map
        (fun p => indentSpaces (4 * p.1) ++ connector ++ p.2.drop connector.length)).reverse
  else tree

/-!
## BackupPlanner (`create_backup`, lines 286-323) and MD5

`hashlib.md5(str(filepath).encode()).hexdigest()` is embedded as a full
MD5 over the UTF-8 bytes of the POSIX string form of the path.  All
32-bit arithmetic is `Nat` with explicit `% 2^32`.
-/

def M32 : Nat := 4294967296

def not32 (x : Nat) : Nat := x ^^^ 4294967295

def rotl32 (x s : Nat) : Nat := (x * 2 ^ s + x / 2 ^ (32 - s)) % M32

def md5K : List Nat := [
  0xd76aa478, 0xe8c7b756, 0x242070db, 0xc1bdceee,
  0xf57c0faf, 0x4787c62a, 0xa8304613, 0xfd469501,
  0x698098d8, 0x8b44f7af, 0xffff5bb1, 0x895cd7be,
  0x6b901122, 0xfd987193, 0xa679438e, 0x49b40821,
  0xf61e2562, 0xc040b340, 0x265e5a51, 0xe9b6c7aa,
  0xd62f105d, 0x02441453, 0xd8a1e681, 0xe7d3fbc8,
  0x21e1cde6, 0xc33707d6, 0xf4d50d87, 0x455a14ed,
  0xa9e3e905, 0xfcefa3f8, 0x676f02d9, 0x8d2a4c8a,
  0xfffa3942, 0x8771f681, 0x6d9d6122, 0xfde5380c,
  0xa4beea44, 0x4bdecfa9, 0xf6bb4b60, 0xbebfbc70,
  0x289b7ec6, 0xeaa127fa, 0xd4ef3085, 0x04881d05,
  0xd9d4d039, 0xe6db99e5, 0x1fa27cf8, 0xc4ac5665,
  0xf4292244, 0x432aff97, 0xab9423a7, 0xfc93a039,
  0x655b59c3, 0x8f0ccc92, 0xffeff47d, 0x85845dd1,
  0x6fa87e4f, 0xfe2ce6e0, 0xa3014314, 0x4e0811a1,
  0xf7537e82, 0xbd3af235, 0x2ad7d2bb, 0xeb86d391]

def md5S : List Nat := [
  7, 12, 17, 22, 7, 12, 17, 22, 7, 12, 17, 22, 7, 12, 17, 22,
  5, 9, 14, 20, 5, 9, 14, 20, 5, 9, 14, 20, 5, 9, 14, 20,
  4, 11, 16, 23, 4, 11, 16, 23, 4, 11, 16, 23, 4, 11, 16, 23,
  6, 10, 15, 21, 6, 10, 15, 21, 6, 10, 15, 21, 6, 10, 15, 21]

def md5f (i b c d : Nat) : Nat :=
  if i < 16 then (b &&& c) ||| (not32 b &&& d)
  else if i < 32 then (d &&& b) ||| (not32 d &&& c)
  else if i < 48 then b ^^^ c ^^^ d
  else c ^^^ (b ||| not32 d)

def md5g (i : Nat) : Nat :=
  if i < 16 then i
  else if i < 32 then (5 * i + 1) % 16
  else if i < 48 then (3 * i + 5) % 16
  else (7 * i) % 16

def le32 (b0 b1 b2 b3 : Nat) : Nat :=
  b0 + 256 * b1 + 65536 * b2 + 16777216 * b3

def chunkWords (chunk : List Nat) : List Nat :=
  (List.range 16).map (fun g =>
    le32 (chunk.getD (4 * g) 0) (chunk.getD (4 * g + 1) 0)
      (chunk.getD (4 * g + 2) 0) (chunk.getD (4 * g + 3) 0))

def md5Round (mw : List Nat) (st : Nat × Nat × Nat × Nat) (i : Nat) :
    Nat × Nat × Nat × Nat :=
  let t := (md5f i st.2.1 st.2.2.1 st.2.2.2 + st.1 + md5K.getD i 0 +
    mw.getD (md5g i) 0) % M32
  (st.2.2.2, (st.2.1 + rotl32 t (md5S.getD i 0)) % M32, st.2.1, st.2.2.1)

def md5Chunk (st : Nat × Nat × Nat × Nat) (chunk : List Nat) :
    Nat × Nat × Nat × Nat :=
  let mw := chunkWords chunk
  let r := (List.range 64).foldl (md5Round mw) st
  ((st.1 + r.1) % M32, (st.2.1 + r.2.1) % M32,
   (st.2.2.1 + r.2.2.1) % M32, (st.2.2.2 + r.2.2.2) % M32)

def md5Pad (msg : List Nat) : List Nat :=
  msg ++ 0x80 :: List.replicate ((119 - msg.length % 64) % 64) 0 ++
    (List.range 8).map (fun i => 8 * msg.length / 256 ^ i % 256)

def chunks64Aux : Nat → List Nat → List (List Nat)
  | 0, l => [l]
  | fuel + 1, l =>
    if l.length ≤ 64 then [l] else l.take 64 :: chunks64Aux fuel (l.drop 64)

def chunks64 (l : List Nat) : List (List Nat) := chunks64Aux l.length l

def md5Init : Nat × Nat × Nat × Nat :=
  (0x67452301, 0xefcdab89, 0x98badcfe, 0x10325476)

def wordLE (w : Nat) : List Nat :=
  [w % 256, w / 256 % 256, w / 65536 % 256, w / 16777216 % 256]

/-- The 16 digest bytes of `hashlib.md5(msg).digest()`. -/
def md5Bytes (msg : List Nat) : List Nat :=
  let r := (chunks64 (md5Pad msg)).foldl md5Chunk md5Init
  wordLE r.1 ++ wordLE r.2.1 ++ wordLE r.2.2.1 ++ wordLE r.2.2.2

def hexDigit (n : Nat) : Char :=
  if n < 10 then Char.ofNat ('0'.toNat + n) else Char.ofNat ('a'.toNat + n - 10)

def byteHex (b : Nat) : Str := [hexDigit (b / 16), hexDigit (b % 16)]

/-- `hashlib.md5(msg).hexdigest()`. -/
def md5Hex (msg : List Nat) : Str := ((md5Bytes msg).map byteHex).flatten

/-- `str.encode()` (UTF-8). -/
def utf8Char (ch : Char) : List Nat :=
  let n := ch.toNat
  if n < 128 then [n]
  else if n < 2048 then [192 + n / 64, 128 + n % 64]
  else if n < 65536 then [224 + n / 4096, 128 + n / 64 % 64, 128 + n % 64]
  else [240 + n / 262144, 128 + n / 4096 % 64, 128 + n / 64 % 64, 128 + n % 64]

def utf8 (s : Str) : List Nat := (s.map utf8Char).flatten

/-- `str(path)` for an absolute POSIX path given by its segments. -/
def strOfPath (segs : List Str) : Str := (segs.map (fun s => '/' :: s)).flatten

def MAX_PATH_LENGTH : Nat := 260

/-- `needle in haystack` (Python substring test, line 298). -/
def containsSub (needle hay : Str) : Bool :=
  (firstIdxFrom (fun i => isPrefixAt needle hay i) 0 (hay.length + 1)).isSome

/-- The backup-destination planning of `create_backup` (lines 288-310):
the relative path is re-rooted under `backup_dir`; files already inside a
backup directory or excluded by the filter are skipped (`none`); when the
string form of the planned destination is longer than `MAX_PATH_LENGTH`,
the destination becomes `backup_dir / (md5-of-path-string ++ suffix)`.
`none` also models the `ValueError` of `relative_to`, caught at
line 320. -/
def backupDest (filepath backup_dir startpath : List Str) (isFile : Bool) :
    Option (List Str) :=
  if startpath.isPrefixOf filepath then
    let rel := filepath.drop startpath.length
    let bp := backup_dir ++ rel
    if containsSub ".tree_map_backup".toList (strOfPath filepath) then none
    else if (should_exclude filepath startpath isFile).getD true then none
    else if (strOfPath bp).length > MAX_PATH_LENGTH then
      some (backup_dir ++ [md5Hex (utf8 (strOfPath filepath)) ++ pySuffix (pathName filepath)])
    else some bp
  else none

/-- Value of a byte list read in base 256 (big-endian); used to show the
digest space is finite. -/
def bytesToNat (l : List Nat) : Nat := l.foldl (fun a b => 256 * a + b) 0

/-- Hypothesis bundle: the `File:` delimiter occurs in the encoded block
at or after `patStart` only at the block's own `File:` line. -/
def UniqueFileMark (st : MStyle) (tree fname : Str) : Prop :=
  ∀ p, isPrefixAt (patFile st) (encodeBlock st tree fname) p = true →
    (patStart st).length ≤ p → p = fileLinePos st tree

/-- Conditions under which a second application of the map update to a
file is a no-op: template expansion is the identity on the encoded block
(no backslash), the block's delimiters occur only where intended, and for
an end-marker style the content does not begin with whitespace when it
contains no block yet (otherwise the pattern's greedy `\s*` eats it). -/
def IdemReady (tree : Str) (f : PyFile) : Prop :=
  UniqueFileMark (styleOf f) tree (fileName f) ∧ '\n' ∉ fileName f ∧
  '\\' ∉ encodeBlock (styleOf f) tree (fileName f) ∧
  ((styleOf f).ce ≠ [] → reSearch (styleOf f) f.content = none →
    f.content.takeWhile isPySpace = [])

/-- A family of ever-longer absolute paths, all eligible for the backup
fallback naming: `/r/q/q/.../q` with `301 + n` segments `q`. -/
def qPath (n : Nat) : List Str := ['r'] :: List.replicate (301 + n) ['q']

/-!
## Lemma kit: least-index search, prefix-at-offset, whitespace runs
-/

theorem firstIdxFrom_eq_some {P : Nat → Bool} {s f i : Nat}
    (h : firstIdxFrom P s f = some i) :
    s ≤ i ∧ i < s + f ∧ P i = true ∧ ∀ j, s ≤ j → j < i → P j = false := by
  induction f generalizing s with
  | zero => simp [firstIdxFrom] at h
  | succ f ih =>
    rw [firstIdxFrom] at h
    cases hps : P s with
    | true =>
      rw [hps] at h
      simp at h
      subst h
      exact ⟨Nat.le_refl _, by omega, hps, fun j h1 h2 => absurd h1 (by omega)⟩
    | false =>
      rw [hps] at h
      simp at h
      obtain ⟨h1, h2, h3, h4⟩ := ih h
      refine ⟨by omega, by omega, h3, fun j hj1 hj2 => ?_⟩
      rcases Nat.eq_or_lt_of_le hj1 with heq | hlt
      · exact heq ▸ hps
      · exact h4 j hlt hj2

theorem firstIdxFrom_eq_some_of {P : Nat → Bool} {s f i : Nat}
    (hi : s ≤ i) (hif : i < s + f) (hp : P i = true)
    (hmin : ∀ j, s ≤ j → j < i → P j = false) :
    firstIdxFrom P s f = some i := by
  induction f generalizing s with
  | zero => omega
  | succ f ih =>
    rw [firstIdxFrom]
    rcases Nat.eq_or_lt_of_le hi with heq | hlt
    · subst heq; rw [hp]; simp
    · have hs : P s = false := hmin s (Nat.le_refl _) hlt
      rw [hs]
      simp
      exact ih hlt (by omega) (fun j h1 h2 => hmin j (by omega) h2)

theorem firstIdxFrom_isSome_of {P : Nat → Bool} {s f i : Nat}
    (hi : s ≤ i) (hif : i < s + f) (hp : P i = true) :
    (firstIdxFrom P s f).isSome = true := by
  induction f generalizing s with
  | zero => omega
  | succ f ih =>
    rw [firstIdxFrom]
    cases hps : P s with
    | true => simp
    | false =>
      simp
      rcases Nat.eq_or_lt_of_le hi with heq | hlt
      · rw [heq] at hps; rw [hps] at hp; exact absurd hp (by simp)
      · exact ih hlt (by omega)

theorem firstIdxFrom_eq_none {P : Nat → Bool} {s f : Nat}
    (h : firstIdxFrom P s f = none) :
    ∀ j, s ≤ j → j < s + f → P j = false := by
  intro j h1 h2
  cases hj : P j with
  | true =>
    have := firstIdxFrom_isSome_of h1 h2 hj
    rw [h] at this
    simp at this
  | false => rfl

theorem isPrefixAt_iff {pat c : Str} {i : Nat} :
    isPrefixAt pat c i = true ↔ pat <+: c.drop i := by
  simp [isPrefixAt, List.isPrefixOf_iff_prefix]

theorem drop_append_add {α : Type} (u w : List α) (d : Nat) :
    (u ++ w).drop (u.length + d) = w.drop d := by
  induction u with
  | nil => simp
  | cons a t ih => simpa [Nat.succ_add] using ih

theorem isPrefixAt_shift {pat u w : Str} (d : Nat) :
    isPrefixAt pat (u ++ w) (u.length + d) = isPrefixAt pat w d := by
  simp [isPrefixAt, drop_append_add]

theorem isPrefixAt_shift0 {pat u w : Str} :
    isPrefixAt pat (u ++ w) u.length = isPrefixAt pat w 0 := by
  simpa using @isPrefixAt_shift pat u w 0

theorem take_append_of_le {α : Type} {u : List α} (v : List α) {n : Nat}
    (h : n ≤ u.length) : (u ++ v).take n = u.take n := by
  induction u generalizing n with
  | nil => simp at h; simp [h]
  | cons a t ih =>
    cases n with
    | zero => simp
    | succ n => simp [ih (by simpa using h)]

theorem prefix_append_of_le {pat x y : Str} (h : pat.length ≤ x.length) :
    (pat <+: x ++ y) ↔ (pat <+: x) := by
  rw [List.prefix_iff_eq_take, List.prefix_iff_eq_take, take_append_of_le y h]

theorem isPrefixAt_append_inner {pat u v : Str} {p : Nat}
    (h : p + pat.length ≤ u.length) :
    isPrefixAt pat (u ++ v) p = isPrefixAt pat u p := by
  have hp : p ≤ u.length := Nat.le_trans (Nat.le_add_right _ _) h
  have hdrop : (u ++ v).drop p = u.drop p ++ v := by
    rw [List.drop_append_eq_append_drop]
    have h0 : p - u.length = 0 := by omega
    rw [h0]
    simp
  by_cases h1 : isPrefixAt pat u p
  · rw [h1]
    rw [isPrefixAt_iff] at h1 ⊢
    rw [hdrop]
    exact (prefix_append_of_le (by simp; omega)).mpr h1
  · rw [Bool.eq_false_iff.mpr h1]
    cases h2 : isPrefixAt pat (u ++ v) p with
    | false => rfl
    | true =>
      rw [isPrefixAt_iff, hdrop, prefix_append_of_le (by simp; omega)] at h2
      rw [← isPrefixAt_iff] at h2
      exact absurd h2 h1

theorem isPrefixAt_singleton {a : Char} {c : Str} {i : Nat} :
    isPrefixAt [a] c i = true ↔ ∃ t, c.drop i = a :: t := by
  rw [isPrefixAt_iff]
  constructor
  · rintro ⟨t, ht⟩; exact ⟨t, ht.symm⟩
  · rintro ⟨t, ht⟩; exact ⟨t, ht.symm⟩

theorem isPrefixAt_bound {pat c : Str} {i : Nat} (hne : pat ≠ [])
    (h : isPrefixAt pat c i = true) : i + pat.length ≤ c.length := by
  rw [isPrefixAt_iff] at h
  have hlen := h.length_le
  rw [List.length_drop] at hlen
  have hpos : 0 < pat.length := List.length_pos.mpr hne
  by_cases hic : i ≤ c.length
  · omega
  · rw [List.drop_of_length_le (by omega)] at h
    have := h.length_le
    simp at this
    omega

theorem isPrefixAt_head_mem {a : Char} {pat c : Str} {i : Nat}
    (h : isPrefixAt (a :: pat) c i = true) : a ∈ c := by
  rw [isPrefixAt_iff] at h
  obtain ⟨t, ht⟩ := h
  have : a ∈ c.drop i := by rw [← ht]; simp
  exact List.drop_subset i c this

theorem takeWhile_drop_length {p : Char → Bool} (l : Str) :
    l.drop (l.takeWhile p).length = l.dropWhile p := by
  induction l with
  | nil => rfl
  | cons a t ih =>
    by_cases hp : p a
    · simpa [List.takeWhile_cons, List.dropWhile_cons, hp] using ih
    · simp [List.takeWhile_cons, List.dropWhile_cons, hp]

theorem takeWhile_dropWhile_nil {p : Char → Bool} (l : Str) :
    (l.dropWhile p).takeWhile p = [] := by
  induction l with
  | nil => rfl
  | cons a t ih =>
    by_cases hp : p a
    · simpa [List.dropWhile_cons, hp] using ih
    · simp [List.dropWhile_cons, List.takeWhile_cons, hp]

theorem expandTemplateAux_no_bs {groups : List Str} {tpl : Str} {fuel : Nat}
    (h : '\\' ∉ tpl) (hf : tpl.length ≤ fuel) :
    expandTemplateAux groups fuel tpl = some tpl := by
  induction tpl generalizing fuel with
  | nil => cases fuel <;> rfl
  | cons a t ih =>
    cases fuel with
    | zero => simp at hf
    | succ f =>
      have ha : a ≠ '\\' := fun hc => h (hc ▸ List.mem_cons_self a t)
      rw [expandTemplateAux, if_neg ha,
        ih (fun hc => h (List.mem_cons_of_mem a hc)) (by simpa using hf)]
      rfl

theorem expandTemplate_no_bs {groups : List Str} {tpl : Str}
    (h : '\\' ∉ tpl) : expandTemplate groups tpl = some tpl :=
  expandTemplateAux_no_bs h (Nat.le_refl _)

/-!
## Characterizing the pattern match on an encoded block
-/

theorem length_encodeBlock (st : MStyle) (tree fname : Str) :
    (encodeBlock st tree fname).length = coreLen st tree fname + (endPart st).length := by
  simp [encodeBlock, coreLen, fileLinePos, fileLine]
  omega

theorem length_endPart_of_ne {st : MStyle} (h : st.ce ≠ []) :
    (endPart st).length = st.ce.length + 1 := by
  simp [endPart, h]

theorem patStart_ne (st : MStyle) : patStart st ≠ [] := by
  intro hc
  have := congrArg List.length hc
  simp [patStart] at this

theorem patFile_ne (st : MStyle) : patFile st ≠ [] := by
  intro hc
  have := congrArg List.length hc
  simp [patFile] at this

theorem isPrefixAt_here {pat w : Str} (u : Str) :
    isPrefixAt pat (u ++ (pat ++ w)) u.length = true := by
  rw [isPrefixAt_shift0, isPrefixAt_iff]
  simpa using List.prefix_append pat w

theorem matchAt_block (st : MStyle) (tree fname u v : Str)
    (hS2 : UniqueFileMark st tree fname)
    (hfn : '\n' ∉ fname)
    (hv : st.ce ≠ [] → v.takeWhile isPySpace = []) :
    matchAt st (u ++ encodeBlock st tree fname ++ v) u.length =
      some ⟨u.length, u.length + coreLen st tree fname,
        u.length + (encodeBlock st tree fname).length⟩ := by
  have hjB : fileLinePos st tree =
      (patStart st).length + 1 + (treeBody st tree).length := rfl
  have hcL : coreLen st tree fname =
      fileLinePos st tree + (patFile st).length + 1 + fname.length + 1 := rfl
  have hBlen := length_encodeBlock st tree fname
  have hBdec : encodeBlock st tree fname =
      patStart st ++ ('\n' :: (treeBody st tree ++ (patFile st ++
        (' ' :: (fname ++ ('\n' :: endPart st)))))) := by
    simp [encodeBlock, fileLine]
  set B := encodeBlock st tree fname with hB
  set c : Str := u ++ B ++ v with hc
  have hclen : c.length = u.length + B.length + v.length := by
    simp [hc]
    try omega
  have hS1at : isPrefixAt (patStart st) c u.length = true := by
    rw [hc, hBdec, List.append_assoc, List.append_assoc]
    exact isPrefixAt_here u
  have hE2 : c = (u ++ (patStart st ++ '\n' :: treeBody st tree)) ++
      (patFile st ++ (' ' :: (fname ++ ('\n' :: (endPart st ++ v))))) := by
    rw [hc, hBdec]
    simp
  have hE2len : (u ++ (patStart st ++ '\n' :: treeBody st tree)).length =
      u.length + fileLinePos st tree := by
    simp [hjB]
    omega
  have hS2at : isPrefixAt (patFile st) c (u.length + fileLinePos st tree) = true := by
    rw [hE2, ← hE2len]
    exact isPrefixAt_here _
  have hS2no : ∀ j, u.length + (patStart st).length ≤ j →
      j < u.length + fileLinePos st tree →
      isPrefixAt (patFile st) c j = false := by
    intro j hj1 hj2
    cases hpre : isPrefixAt (patFile st) c j with
    | false => rfl
    | true =>
      exfalso
      have hd : j = u.length + (j - u.length) := by omega
      rw [hd, hc, List.append_assoc, isPrefixAt_shift] at hpre
      have hinner : (j - u.length) + (patFile st).length ≤ B.length := by
        have h2 : fileLinePos st tree + (patFile st).length ≤
            coreLen st tree fname := by omega
        omega
      rw [isPrefixAt_append_inner hinner] at hpre
      have := hS2 _ hpre (by omega)
      omega
  have hE4 : c = (u ++ (patStart st ++ '\n' :: treeBody st tree ++ patFile st ++
      [' '] ++ fname)) ++ ('\n' :: (endPart st ++ v)) := by
    rw [hc, hBdec]
    simp
  have hE4len : (u ++ (patStart st ++ '\n' :: treeBody st tree ++ patFile st ++
      [' '] ++ fname)).length = u.length + coreLen st tree fname - 1 := by
    simp [hcL, hjB]
    omega
  have hnlAt : isPrefixAt ['\n'] c (u.length + coreLen st tree fname - 1) = true := by
    rw [hE4, ← hE4len]
    have h5 : ('\n' :: (endPart st ++ v)) = ['\n'] ++ (endPart st ++ v) := rfl
    rw [h5]
    exact isPrefixAt_here _
  have hnlNo : ∀ k, u.length + fileLinePos st tree + (patFile st).length ≤ k →
      k < u.length + coreLen st tree fname - 1 →
      isPrefixAt ['\n'] c k = false := by
    intro k hk1 hk2
    have hE3 : c = (u ++ (patStart st ++ '\n' :: treeBody st tree ++ patFile st)) ++
        ((' ' :: fname) ++ ('\n' :: (endPart st ++ v))) := by
      rw [hc, hBdec]
      simp
    have hE3len : (u ++ (patStart st ++ '\n' :: treeBody st tree ++
        patFile st)).length = u.length + fileLinePos st tree + (patFile st).length := by
      simp [hjB]
      omega
    cases hpre : isPrefixAt ['\n'] c k with
    | false => rfl
    | true =>
      exfalso
      have hd : k = (u ++ (patStart st ++ '\n' :: treeBody st tree ++
          patFile st)).length + (k - (u.length + fileLinePos st tree +
          (patFile st).length)) := by
        rw [hE3len]
        omega
      rw [hE3, hd, isPrefixAt_shift] at hpre
      have htlt : k - (u.length + fileLinePos st tree + (patFile st).length) <
          1 + fname.length := by omega
      generalize hts : k - (u.length + fileLinePos st tree +
        (patFile st).length) = t at hpre htlt
      rw [isPrefixAt_append_inner (by simp; omega)] at hpre
      cases t with
      | zero =>
        rw [isPrefixAt_singleton] at hpre
        obtain ⟨tl, htl⟩ := hpre
        simp at htl
      | succ s =>
        have hpre2 : isPrefixAt ['\n'] ([' '] ++ fname) (List.length [' '] + s) = true := by
          have h1 : List.length [' '] + s = s + 1 := by simp; omega
          rw [h1]
          exact hpre
        rw [isPrefixAt_shift] at hpre2
        exact hfn (isPrefixAt_head_mem hpre2)
  -- the k-search succeeds exactly at the File line's newline
  have heCond : (st.ce.isEmpty ||
      isPrefixAt st.ce c (u.length + coreLen st tree fname - 1 + 1)) = true := by
    by_cases hce : st.ce = []
    · simp [hce]
    · have hEP : endPart st = st.ce ++ ['\n'] := by simp [endPart, hce]
      have hE5 : c = (u ++ (patStart st ++ '\n' :: treeBody st tree ++ patFile st ++
          [' '] ++ fname ++ ['\n'])) ++ (st.ce ++ ('\n' :: v)) := by
        rw [hc, hBdec, hEP]
        simp
      have hE5len : (u ++ (patStart st ++ '\n' :: treeBody st tree ++ patFile st ++
          [' '] ++ fname ++ ['\n'])).length = u.length + coreLen st tree fname := by
        simp [hcL, hjB]
        omega
      have : isPrefixAt st.ce c (u.length + coreLen st tree fname) = true := by
        rw [hE5, ← hE5len]
        exact isPrefixAt_here _
      rw [Bool.or_eq_true]
      right
      have harith : u.length + coreLen st tree fname - 1 + 1 =
          u.length + coreLen st tree fname := by
        have : 1 ≤ coreLen st tree fname := by omega
        omega
      rw [harith]
      exact this
  have hfk : findK st.ce c (u.length + fileLinePos st tree + (patFile st).length) =
      some (u.length + coreLen st tree fname - 1) := by
    rw [findK]
    apply firstIdxFrom_eq_some_of
    · omega
    · have h1 : coreLen st tree fname ≤ B.length := by omega
      omega
    · rw [Bool.and_eq_true]
      exact ⟨hnlAt, heCond⟩
    · intro j hj1 hj2
      rw [Bool.and_eq_false_iff]
      left
      exact hnlNo j hj1 hj2
  have hfj : findJ (patFile st) st.ce c (u.length + (patStart st).length) =
      some (u.length + fileLinePos st tree, u.length + coreLen st tree fname - 1) := by
    rw [findJ]
    have h1 : firstIdxFrom
        (fun j => isPrefixAt (patFile st) c j && (findK st.ce c (j + (patFile st).length)).isSome)
        (u.length + (patStart st).length)
        (c.length + 1 - (u.length + (patStart st).length)) =
        some (u.length + fileLinePos st tree) := by
      apply firstIdxFrom_eq_some_of
      · omega
      · have h2 : coreLen st tree fname ≤ B.length := by omega
        omega
      · rw [Bool.and_eq_true]
        refine ⟨hS2at, ?_⟩
        rw [hfk]
        rfl
      · intro j hj1 hj2
        rw [Bool.and_eq_false_iff]
        left
        exact hS2no j hj1 hj2
    simp only [h1, hfk]
  simp only [matchAt, hS1at, if_true, hfj]
  have hk1 : u.length + coreLen st tree fname - 1 + 1 =
      u.length + coreLen st tree fname := by
    have h2 : 1 ≤ coreLen st tree fname := by omega
    omega
  by_cases hce : st.ce = []
  · have hEP0 : (endPart st).length = 0 := by simp [endPart, hce]
    rw [if_pos hce]
    simp only [Option.some.injEq, MatchSpan.mk.injEq]
    refine ⟨trivial, by omega, by omega⟩
  · have hEPlen := length_endPart_of_ne hce
    have hEP : endPart st = st.ce ++ ['\n'] := by simp [endPart, hce]
    have hE6 : c = (u ++ (patStart st ++ '\n' :: treeBody st tree ++ patFile st ++
        [' '] ++ fname ++ ['\n'] ++ st.ce)) ++ ('\n' :: v) := by
      rw [hc, hBdec, hEP]
      simp
    have hE6len : (u ++ (patStart st ++ '\n' :: treeBody st tree ++ patFile st ++
        [' '] ++ fname ++ ['\n'] ++ st.ce)).length =
        u.length + coreLen st tree fname + st.ce.length := by
      simp [hcL, hjB]
      omega
    have hws : wsLen c (u.length + coreLen st tree fname - 1 + 1 + st.ce.length) = 1 := by
      rw [hk1, wsLen, hE6, ← hE6len]
      have hdrop : ((u ++ (patStart st ++ '\n' :: treeBody st tree ++ patFile st ++
          [' '] ++ fname ++ ['\n'] ++ st.ce)) ++ ('\n' :: v)).drop
          (u ++ (patStart st ++ '\n' :: treeBody st tree ++ patFile st ++
          [' '] ++ fname ++ ['\n'] ++ st.ce)).length = '\n' :: v := by
        have h0 := drop_append_add (u ++ (patStart st ++ '\n' :: treeBody st tree ++
          patFile st ++ [' '] ++ fname ++ ['\n'] ++ st.ce)) ('\n' :: v) 0
        simpa using h0
      rw [hdrop]
      rw [List.takeWhile_cons]
      have hsp : isPySpace '\n' = true := by decide
      rw [hsp]
      simp [hv hce]
    rw [if_neg hce]
    simp only [Option.some.injEq, MatchSpan.mk.injEq]
    refine ⟨trivial, by omega, ?_⟩
    rw [hws]
    omega

theorem matchAt_of_no_start {st : MStyle} {c : Str} {i : Nat}
    (h : isPrefixAt (patStart st) c i = false) : matchAt st c i = none := by
  rw [matchAt, h]
  simp

theorem matchAt_start {st : MStyle} {c : Str} {i : Nat} {sp : MatchSpan}
    (h : matchAt st c i = some sp) : isPrefixAt (patStart st) c i = true := by
  cases hp : isPrefixAt (patStart st) c i with
  | true => rfl
  | false => rw [matchAt_of_no_start hp] at h; exact absurd h (by simp)

theorem matchAt_self {st : MStyle} {c : Str} {i : Nat} {sp : MatchSpan}
    (h : matchAt st c i = some sp) : sp.i = i := by
  rw [matchAt, matchAt_start h] at h
  simp at h
  cases hfj : findJ (patFile st) st.ce c (i + (patStart st).length) with
  | none => rw [hfj] at h; simp at h
  | some jk =>
    rw [hfj] at h
    obtain ⟨j, k⟩ := jk
    simp at h
    rw [← h]

theorem findJ_char {s2 e c : Str} {minJ j k : Nat}
    (h : findJ s2 e c minJ = some (j, k)) :
    minJ ≤ j ∧ j ≤ c.length ∧ isPrefixAt s2 c j = true ∧
      findK e c (j + s2.length) = some k := by
  rw [findJ] at h
  cases hfi : firstIdxFrom
      (fun j => isPrefixAt s2 c j && (findK e c (j + s2.length)).isSome)
      minJ (c.length + 1 - minJ) with
  | none => rw [hfi] at h; simp at h
  | some j0 =>
    rw [hfi] at h
    simp only [] at h
    obtain ⟨h1, h2, h3, _⟩ := firstIdxFrom_eq_some hfi
    cases hfk : findK e c (j0 + s2.length) with
    | none => rw [hfk] at h; simp at h
    | some k0 =>
      rw [hfk] at h
      simp at h
      obtain ⟨hj, hk⟩ := h
      subst hj
      subst hk
      rw [Bool.and_eq_true] at h3
      exact ⟨h1, by omega, h3.1, hfk⟩

theorem findJ_isSome_of {s2 e c : Str} {minJ j : Nat} (hj : minJ ≤ j)
    (hjc : j ≤ c.length)
    (hP : (isPrefixAt s2 c j && (findK e c (j + s2.length)).isSome) = true) :
    (findJ s2 e c minJ).isSome = true := by
  rw [findJ]
  have hs := firstIdxFrom_isSome_of (P := fun j =>
    isPrefixAt s2 c j && (findK e c (j + s2.length)).isSome)
    (f := c.length + 1 - minJ) hj (by omega) hP
  cases hfi : firstIdxFrom
      (fun j => isPrefixAt s2 c j && (findK e c (j + s2.length)).isSome)
      minJ (c.length + 1 - minJ) with
  | none => rw [hfi] at hs; simp at hs
  | some j0 =>
    obtain ⟨_, _, h3, _⟩ := firstIdxFrom_eq_some hfi
    rw [Bool.and_eq_true] at h3
    obtain ⟨_, hk⟩ := h3
    cases hfk : findK e c (j0 + s2.length) with
    | none => rw [hfk] at hk; simp at hk
    | some k0 => simp [hfk]

theorem matchAt_mono {st : MStyle} {c : Str} {i i' : Nat} {sp : MatchSpan}
    (h : matchAt st c i = some sp) (h1 : isPrefixAt (patStart st) c i' = true)
    (h2 : i' ≤ i) : (matchAt st c i').isSome = true := by
  rw [matchAt, matchAt_start h] at h
  simp at h
  cases hfj : findJ (patFile st) st.ce c (i + (patStart st).length) with
  | none => rw [hfj] at h; simp at h
  | some jk =>
    obtain ⟨j, k⟩ := jk
    obtain ⟨hj1, hj2, hj3, hj4⟩ := findJ_char hfj
    have hsome : (findJ (patFile st) st.ce c (i' + (patStart st).length)).isSome = true := by
      apply findJ_isSome_of (j := j) (by omega) hj2
      rw [Bool.and_eq_true]
      exact ⟨hj3, by rw [hj4]; rfl⟩
    rw [matchAt, h1]
    simp
    cases hfj2 : findJ (patFile st) st.ce c (i' + (patStart st).length) with
    | none => rw [hfj2] at hsome; simp at hsome
    | some jk2 =>
      obtain ⟨j2, k2⟩ := jk2
      simp

theorem reSearch_char {st : MStyle} {c : Str} {m : MatchSpan}
    (h : reSearch st c = some m) :
    matchAt st c m.i = some m ∧ m.i ≤ c.length ∧
      ∀ i', i' < m.i → matchAt st c i' = none := by
  rw [reSearch] at h
  cases hfi : firstIdxFrom (fun i => (matchAt st c i).isSome) 0 (c.length + 1) with
  | none => rw [hfi] at h; simp at h
  | some i =>
    rw [hfi] at h
    obtain ⟨_, h2, h3, h4⟩ := firstIdxFrom_eq_some hfi
    have hieq : m.i = i := matchAt_self h
    subst hieq
    refine ⟨h, by omega, fun i' hi' => ?_⟩
    have := h4 i' (by omega) hi'
    cases hm : matchAt st c i' with
    | none => rfl
    | some sp => rw [hm] at this; simp at this

theorem reSearch_of_first {st : MStyle} {c : Str} {i : Nat} {sp : MatchSpan}
    (h : matchAt st c i = some sp) (hi : i ≤ c.length)
    (hmin : ∀ i', i' < i → matchAt st c i' = none) : reSearch st c = some sp := by
  rw [reSearch]
  have hfi : firstIdxFrom (fun i => (matchAt st c i).isSome) 0 (c.length + 1) =
      some i := by
    apply firstIdxFrom_eq_some_of (by omega) (by omega)
    · rw [h]; rfl
    · intro j _ hj
      rw [hmin j hj]
      rfl
  rw [hfi]
  exact h

theorem reSearch_no_start {st : MStyle} {c : Str} {m : MatchSpan}
    (h : reSearch st c = some m) :
    ∀ i', i' < m.i → isPrefixAt (patStart st) c i' = false := by
  intro i' hi'
  obtain ⟨hm, _, hmin⟩ := reSearch_char h
  cases hp : isPrefixAt (patStart st) c i' with
  | false => rfl
  | true =>
    have := matchAt_mono hm hp (Nat.le_of_lt hi')
    rw [hmin i' hi'] at this
    simp at this

theorem findK_char {e c : Str} {q k : Nat} (h : findK e c q = some k) :
    q ≤ k ∧ isPrefixAt ['\n'] c k = true ∧
      (e ≠ [] → isPrefixAt e c (k + 1) = true) := by
  rw [findK] at h
  obtain ⟨h1, _, h3, _⟩ := firstIdxFrom_eq_some h
  rw [Bool.and_eq_true] at h3
  refine ⟨h1, h3.1, fun hne => ?_⟩
  rcases Bool.or_eq_true _ _ |>.mp h3.2 with he | hp
  · exact absurd (List.isEmpty_iff.mp he) hne
  · exact hp

theorem matchAt_stop_le {st : MStyle} {c : Str} {i : Nat} {sp : MatchSpan}
    (h : matchAt st c i = some sp) : sp.stop ≤ c.length := by
  rw [matchAt, matchAt_start h] at h
  simp at h
  cases hfj : findJ (patFile st) st.ce c (i + (patStart st).length) with
  | none => rw [hfj] at h; simp at h
  | some jk =>
    obtain ⟨j, k⟩ := jk
    rw [hfj] at h
    simp at h
    obtain ⟨_, _, hk⟩ := findJ_char hfj
    obtain ⟨_, hnl, hend⟩ := findK_char hk.2
    have hkb := isPrefixAt_bound (by simp) hnl
    simp at hkb
    rw [← h]
    by_cases hce : st.ce = []
    · simp [hce]
      try omega
    · simp [hce]
      have heb := isPrefixAt_bound hce (hend hce)
      have hw : wsLen c (k + 1 + st.ce.length) ≤
          c.length - (k + 1 + st.ce.length) := by
        rw [wsLen]
        calc ((c.drop (k + 1 + st.ce.length)).takeWhile isPySpace).length
            ≤ (c.drop (k + 1 + st.ce.length)).length :=
              (List.takeWhile_prefix _).length_le
          _ = c.length - (k + 1 + st.ce.length) := by rw [List.length_drop]
      omega

theorem matchAt_stop_ws {st : MStyle} {c : Str} {i : Nat} {sp : MatchSpan}
    (h : matchAt st c i = some sp) (hce : st.ce ≠ []) :
    (c.drop sp.stop).takeWhile isPySpace = [] := by
  rw [matchAt, matchAt_start h] at h
  simp at h
  cases hfj : findJ (patFile st) st.ce c (i + (patStart st).length) with
  | none => rw [hfj] at h; simp at h
  | some jk =>
    obtain ⟨j, k⟩ := jk
    rw [hfj] at h
    simp at h
    rw [← h]
    simp only [hce, if_false]
    have hdd : c.drop (k + 1 + st.ce.length + wsLen c (k + 1 + st.ce.length)) =
        (c.drop (k + 1 + st.ce.length)).drop (wsLen c (k + 1 + st.ce.length)) := by
      rw [List.drop_drop]
      try congr 1
      try omega
    rw [hdd, wsLen, takeWhile_drop_length, takeWhile_dropWhile_nil]

theorem take_at_len {α : Type} (X Y : List α) : (X ++ Y).take X.length = X := by
  rw [take_append_of_le Y (Nat.le_refl _), List.take_length]

theorem drop_at_len {α : Type} (X Y : List α) : (X ++ Y).drop X.length = Y := by
  simpa using drop_append_add X Y 0

theorem encodeBlock_dec (st : MStyle) (tree fname : Str) :
    encodeBlock st tree fname =
      patStart st ++ ('\n' :: (treeBody st tree ++ (patFile st ++
        (' ' :: (fname ++ ('\n' :: endPart st)))))) := by
  simp [encodeBlock, fileLine]

theorem applyUpdate_of_block (st : MStyle) (tree fname u v : Str)
    (hS2 : UniqueFileMark st tree fname) (hfn : '\n' ∉ fname)
    (hB : '\\' ∉ encodeBlock st tree fname)
    (hv : st.ce ≠ [] → v.takeWhile isPySpace = [])
    (hu : ∀ i', i' < u.length →
      isPrefixAt (patStart st) (u ++ encodeBlock st tree fname ++ v) i' = false) :
    applyUpdate st tree fname (u ++ encodeBlock st tree fname ++ v) =
      some (u ++ encodeBlock st tree fname ++ v) := by
  have hm := matchAt_block st tree fname u v hS2 hfn hv
  have hnone : ∀ i', i' < u.length →
      matchAt st (u ++ encodeBlock st tree fname ++ v) i' = none :=
    fun i' h => matchAt_of_no_start (hu i' h)
  have hlen : u.length ≤ (u ++ encodeBlock st tree fname ++ v).length := by
    simp
    try omega
  have hsearch := reSearch_of_first hm hlen hnone
  rw [applyUpdate]
  simp only [hsearch, expandTemplate_no_bs hB]
  have h1 : (u ++ encodeBlock st tree fname ++ v).take u.length = u := by
    rw [List.append_assoc]
    exact take_at_len u _
  have h2 : (u ++ encodeBlock st tree fname ++ v).drop
      (u.length + (encodeBlock st tree fname).length) = v := by
    have hl : u.length + (encodeBlock st tree fname).length =
        (u ++ encodeBlock st tree fname).length := by simp
    rw [hl]
    exact drop_at_len (u ++ encodeBlock st tree fname) v
  rw [h1, h2]

theorem applyUpdate_idem (st : MStyle) (tree fname : Str)
    (hS2 : UniqueFileMark st tree fname) (hfn : '\n' ∉ fname)
    (hB : '\\' ∉ encodeBlock st tree fname) (c c1 : Str)
    (happ : applyUpdate st tree fname c = some c1)
    (hws : st.ce ≠ [] → reSearch st c = none → c.takeWhile isPySpace = []) :
    applyUpdate st tree fname c1 = some c1 := by
  cases hs : reSearch st c with
  | none =>
    have hc1 : c1 = encodeBlock st tree fname ++ c := by
      rw [applyUpdate] at happ
      simp only [hs] at happ
      simp at happ
      exact happ.symm
    have hres := applyUpdate_of_block st tree fname [] c hS2 hfn hB
      (fun hce => hws hce hs) (fun i' h => by simp at h)
    rw [hc1]
    simpa using hres
  | some m =>
    obtain ⟨hm, hmi, hmin⟩ := reSearch_char hs
    have hstop := matchAt_stop_le hm
    have hS1i : isPrefixAt (patStart st) c m.i = true := matchAt_start hm
    have hc1 : c1 = c.take m.i ++ encodeBlock st tree fname ++ c.drop m.stop := by
      rw [applyUpdate] at happ
      simp only [hs, expandTemplate_no_bs hB] at happ
      simp at happ
      rw [← List.append_assoc] at happ
      exact happ.symm
    have hulen : (c.take m.i).length = m.i := by
      rw [List.length_take]
      omega
    have hv : st.ce ≠ [] → (c.drop m.stop).takeWhile isPySpace = [] :=
      fun hce => matchAt_stop_ws hm hce
    have hu : ∀ i', i' < (c.take m.i).length →
        isPrefixAt (patStart st)
          (c.take m.i ++ encodeBlock st tree fname ++ c.drop m.stop) i' = false := by
      intro i' hi'
      rw [hulen] at hi'
      have hfalse := reSearch_no_start hs i' hi'
      obtain ⟨w1, hw1⟩ := isPrefixAt_iff.mp hS1i
      have hcdec : c = (c.take m.i ++ patStart st) ++ w1 := by
        conv_lhs => rw [← List.take_append_drop m.i c]
        rw [← hw1]
        simp
      have hc1dec : c.take m.i ++ encodeBlock st tree fname ++ c.drop m.stop =
          (c.take m.i ++ patStart st) ++
            (('\n' :: (treeBody st tree ++ (patFile st ++
              (' ' :: (fname ++ ('\n' :: endPart st)))))) ++ c.drop m.stop) := by
        rw [encodeBlock_dec]
        simp
      rw [hc1dec, isPrefixAt_append_inner (by simp [hulen]; omega)]
      rw [hcdec, isPrefixAt_append_inner (by simp [hulen]; omega)] at hfalse
      exact hfalse
    have hres := applyUpdate_of_block st tree fname (c.take m.i) (c.drop m.stop)
      hS2 hfn hB hv hu
    rw [hc1]
    exact hres

theorem matchAt_le_stop {st : MStyle} {c : Str} {i : Nat} {sp : MatchSpan}
    (h : matchAt st c i = some sp) : i ≤ sp.stop := by
  rw [matchAt, matchAt_start h] at h
  simp at h
  cases hfj : findJ (patFile st) st.ce c (i + (patStart st).length) with
  | none => rw [hfj] at h; simp at h
  | some jk =>
    obtain ⟨j, k⟩ := jk
    rw [hfj] at h
    simp at h
    obtain ⟨hj1, _, _, hk⟩ := findJ_char hfj
    obtain ⟨hk1, _, _⟩ := findK_char hk
    rw [← h]
    by_cases hce : st.ce = [] <;> simp [hce] <;> omega

theorem uniqueFileMark_of_bounded (st : MStyle) (tree fname : Str)
    (h : ∀ p, p < (encodeBlock st tree fname).length →
      isPrefixAt (patFile st) (encodeBlock st tree fname) p = true →
      (patStart st).length ≤ p → p = fileLinePos st tree) :
    UniqueFileMark st tree fname := by
  intro p hp hge
  by_cases hlt : p < (encodeBlock st tree fname).length
  · exact h p hlt hp hge
  · have := isPrefixAt_bound (patFile_ne st) hp
    have hpos : 0 < (patFile st).length := by
      simp [patFile]
    omega

/-!
## Orchestrator lemmas
-/

theorem processOne_file (tree : Str) (be : Bool) (f : PyFile) (ms : MState) :
    (processOne tree be f ms).1 = fileAfter tree be f := by
  rw [processOne, fileAfter, processOne]
  repeat' split <;> try rfl

theorem processOne_w (tree : Str) (be : Bool) (f : PyFile) (ms : MState) :
    (processOne tree be f ms).2.2 = rewrites tree f := by
  rw [processOne, rewrites]
  repeat' split
  all_goals try rfl
  all_goals simp_all

theorem processOne_modified (tree : Str) (be : Bool) (f : PyFile) (ms : MState) :
    (processOne tree be f ms).2.1.files_modified =
      ms.files_modified + (if rewrites tree f then 1 else 0) := by
  rw [processOne, rewrites]
  repeat' split
  all_goals try rfl
  all_goals simp_all

theorem updateFiles_files (tree : Str) (be : Bool) (files : List PyFile)
    (ms : MState) :
    (updateFiles tree be files ms).1 = files.map (fileAfter tree be) := by
  induction files generalizing ms with
  | nil => rfl
  | cons f fs ih =>
    rw [updateFiles]
    simp [processOne_file, ih]

theorem updateFiles_mods (tree : Str) (be : Bool) (files : List PyFile)
    (ms : MState) :
    (updateFiles tree be files ms).2.2 =
      (files.filter (fun f => rewrites tree f)).map (fun f => f.segs) := by
  induction files generalizing ms with
  | nil => rfl
  | cons f fs ih =>
    rw [updateFiles]
    simp only [ih]
    rw [List.filter_cons]
    cases hw : rewrites tree f with
    | true => simp [processOne_w, hw]
    | false => simp [processOne_w, hw]

theorem updateFiles_modified (tree : Str) (be : Bool) (files : List PyFile)
    (ms : MState) :
    (updateFiles tree be files ms).2.1.files_modified =
      ms.files_modified + (files.filter (fun f => rewrites tree f)).length := by
  induction files generalizing ms with
  | nil => rfl
  | cons f fs ih =>
    rw [updateFiles]
    simp only [ih, processOne_modified]
    rw [List.filter_cons]
    cases hw : rewrites tree f with
    | true => simp [hw]; omega
    | false => simp [hw]

theorem rewrites_elim {tree : Str} {f : PyFile} (h : rewrites tree f = true) :
    shouldExcludeParts f.segs f.isFile (fileName f) = false ∧ f.isFile = true ∧
    f.isBinary = false ∧ f.readFails = false ∧ f.writeFails = false ∧
    ∃ u, applyUpdate (styleOf f) tree (fileName f) f.content = some u ∧
      u ≠ f.content := by
  rw [rewrites] at h
  cases happ : applyUpdate (styleOf f) tree (fileName f) f.content with
  | none => rw [happ] at h; simp at h
  | some u =>
    rw [happ] at h
    simp only [Bool.and_eq_true, Bool.not_eq_true', decide_eq_true_eq] at h
    obtain ⟨⟨⟨⟨ha, hb⟩, hc⟩, hd⟩, hu, hwr⟩ := h
    exact ⟨ha, hb, hc, hd, hwr, u, rfl, hu⟩

theorem fileAfter_of_rw_false {tree : Str} {be : Bool} {f : PyFile}
    (h : rewrites tree f = false) (hwf : f.writeFails = false) :
    fileAfter tree be f = f := by
  rw [rewrites] at h
  rw [fileAfter, processOne]
  repeat' split
  all_goals simp_all

theorem rewrites_of_writeFails {tree : Str} {g : PyFile}
    (h : g.writeFails = true) : rewrites tree g = false := by
  rw [rewrites]
  cases happ : applyUpdate (styleOf g) tree (fileName g) g.content with
  | none => simp [happ]
  | some u => simp [happ, h]

theorem fileAfter_writeFails (tree : Str) (be : Bool) (f : PyFile) :
    (fileAfter tree be f).writeFails = f.writeFails := by
  rw [fileAfter, processOne]
  repeat' split
  all_goals rfl

theorem fileAfter_of_rw_true {tree : Str} {be : Bool} {f : PyFile}
    (h : rewrites tree f = true) :
    ∃ u, applyUpdate (styleOf f) tree (fileName f) f.content = some u ∧
      u ≠ f.content ∧ fileAfter tree be f = { f with content := u } := by
  rw [rewrites] at h
  rw [fileAfter, processOne]
  repeat' split
  all_goals try (refine ⟨_, ?_, ?_, rfl⟩ <;> simp_all)
  all_goals simp_all

theorem rewrites_after {tree : Str} {be : Bool} {f : PyFile}
    (hclean : rewrites tree f = true → IdemReady tree f) :
    rewrites tree (fileAfter tree be f) = false := by
  cases hw : rewrites tree f with
  | false =>
    cases hwf : f.writeFails with
    | true => exact rewrites_of_writeFails ((fileAfter_writeFails tree be f).trans hwf)
    | false => rw [fileAfter_of_rw_false hw hwf]; exact hw
  | true =>
    obtain ⟨hS2, hfn, hB, hws⟩ := hclean hw
    obtain ⟨u, happ, hne, hafter⟩ := @fileAfter_of_rw_true tree be _ hw
    have hidem := applyUpdate_idem (styleOf f) tree (fileName f) hS2 hfn hB
      f.content u happ hws
    rw [hafter]
    rw [rewrites]
    have hsty : styleOf { f with content := u } = styleOf f := rfl
    have hnm : fileName { f with content := u } = fileName f := rfl
    simp [hsty, hnm, hidem]

theorem skip_after {tree : Str} {be : Bool} {f : PyFile}
    (hw : rewrites tree f = true) (hclean : IdemReady tree f) :
    skipNoChange tree (fileAfter tree be f) = true := by
  obtain ⟨hS2, hfn, hB, hws⟩ := hclean
  obtain ⟨u, happ, hne, hafter⟩ := @fileAfter_of_rw_true tree be _ hw
  have hidem := applyUpdate_idem (styleOf f) tree (fileName f) hS2 hfn hB
    f.content u happ hws
  obtain ⟨he, hf, hb, hr, _, _⟩ := rewrites_elim hw
  rw [hf] at he
  rw [hafter, skipNoChange]
  simp only [fileName, styleOf, List.getLastD_eq_getLast?] at hidem he ⊢
  simp [he, hf, hb, hr, hidem]

/-!
## Claim theorems
-/

/-- **C1** (amended).  Idempotence of the map-insertion operation: a second
application of `applyUpdate` with the same tree text is a no-op — provided
the encoded block contains no backslash (otherwise `re.subn` template
expansion alters it), the `{middle} File:` delimiter occurs in the block
only at its own `File:` line, the filename contains no newline, and, for a
comment style with a nonempty end marker, content that does not yet carry
a block does not begin with whitespace (otherwise the pattern's trailing
greedy `\s*` swallows that whitespace on the second pass).  As originally
stated — for *every* content, tree text, filename and comment style — the
claim is false; see the counterexample. -/
theorem C1_idempotence_amended (st : MStyle) (tree fname c c1 : Str)
    (hS2 : UniqueFileMark st tree fname) (hfn : '\n' ∉ fname)
    (hB : '\\' ∉ encodeBlock st tree fname)
    (hws : st.ce ≠ [] → reSearch st c = none → c.takeWhile isPySpace = [])
    (happ : applyUpdate st tree fname c = some c1) :
    applyUpdate st tree fname c1 = some c1 :=
  applyUpdate_idem st tree fname hS2 hfn hB c c1 happ hws

/-- Witness for C1: a concrete `#`-style file; the first application
prepends the block, the second is the identity. -/
theorem C1_idempotence_witness :
    applyUpdate ⟨['#'], ['#'], []⟩ ['t'] "a.py".toList ['x'] =
      some (encodeBlock ⟨['#'], ['#'], []⟩ ['t'] "a.py".toList ++ ['x']) ∧
    applyUpdate ⟨['#'], ['#'], []⟩ ['t'] "a.py".toList
        (encodeBlock ⟨['#'], ['#'], []⟩ ['t'] "a.py".toList ++ ['x']) =
      some (encodeBlock ⟨['#'], ['#'], []⟩ ['t'] "a.py".toList ++ ['x']) := by
  have h1 : applyUpdate ⟨['#'], ['#'], []⟩ ['t'] "a.py".toList ['x'] =
      some (encodeBlock ⟨['#'], ['#'], []⟩ ['t'] "a.py".toList ++ ['x']) := by
    decide
  refine ⟨h1, C1_idempotence_amended _ _ _ _ _ ?_ ?_ ?_ ?_ h1⟩
  · exact uniqueFileMark_of_bounded _ _ _ (by decide)
  · decide
  · decide
  · intro h
    simp at h

/-- Counterexample to C1 as stated: with tree text `\1` the encoded block
contains a backslash; the second application expands `\1` as a group
backreference inside the replacement template, so it differs from the
first. -/
theorem C1_idempotence_cex :
    applyUpdate ⟨['#'], ['#'], []⟩ "\\1".toList "a.py".toList ['x'] =
      some (encodeBlock ⟨['#'], ['#'], []⟩ "\\1".toList "a.py".toList ++ ['x']) ∧
    applyUpdate ⟨['#'], ['#'], []⟩ "\\1".toList "a.py".toList
        (encodeBlock ⟨['#'], ['#'], []⟩ "\\1".toList "a.py".toList ++ ['x']) ≠
      some (encodeBlock ⟨['#'], ['#'], []⟩ "\\1".toList "a.py".toList ++ ['x']) := by
  decide

/-- **C2** (amended).  Content preservation: when no block is present the
freshly encoded block is prepended and the content kept verbatim
(unconditionally); when a block is present, *exactly the first* match is
replaced and every byte outside the match span is unchanged, and the
output length satisfies the claimed balance — provided the encoded block
contains no backslash, since otherwise `re.subn` inserts the
template-expanded text rather than the block itself (see the
counterexample). -/
theorem C2_content_preservation_amended (st : MStyle) (tree fname c : Str)
    (hB : '\\' ∉ encodeBlock st tree fname) :
    (reSearch st c = none →
      applyUpdate st tree fname c = some (encodeBlock st tree fname ++ c)) ∧
    ∀ m, reSearch st c = some m →
      applyUpdate st tree fname c =
        some (c.take m.i ++ encodeBlock st tree fname ++ c.drop m.stop) ∧
      (∀ i', i' < m.i → matchAt st c i' = none) ∧
      (c.take m.i ++ encodeBlock st tree fname ++ c.drop m.stop).length +
        (m.stop - m.i) = c.length + (encodeBlock st tree fname).length := by
  constructor
  · intro hs
    rw [applyUpdate]
    simp only [hs]
  · intro m hs
    obtain ⟨hm, hmi, hmin⟩ := reSearch_char hs
    have hstop := matchAt_stop_le hm
    have hle := matchAt_le_stop hm
    refine ⟨?_, hmin, ?_⟩
    · rw [applyUpdate]
      simp only [hs, expandTemplate_no_bs hB]
    · simp only [List.length_append, List.length_take, List.length_drop]
      omega

/-- Witness for C2: a concrete clean update, both branches checked at a
content with an existing block. -/
theorem C2_content_preservation_witness :
    applyUpdate ⟨['#'], ['#'], []⟩ ['t'] "a.py".toList
        ("# Repository Map:\n# old\n# File: a.py\nrest".toList) =
      some (("# Repository Map:\n# old\n# File: a.py\nrest".toList).take 0 ++
        encodeBlock ⟨['#'], ['#'], []⟩ ['t'] "a.py".toList ++
        ("# Repository Map:\n# old\n# File: a.py\nrest".toList).drop 37) := by
  have h := (C2_content_preservation_amended ⟨['#'], ['#'], []⟩ ['t']
    "a.py".toList ("# Repository Map:\n# old\n# File: a.py\nrest".toList)
    (by decide)).2 ⟨0, 37, 37⟩ (by decide)
  exact h.1

/-- Counterexample to C2 as stated: with a backslash in the tree text the
replacement is not the encoded block, and the claimed length balance
fails. -/
theorem C2_content_preservation_cex :
    (applyUpdate ⟨['#'], ['#'], []⟩ "\\1".toList "a.py".toList
      ("# Repository Map:\n# old\n# File: a.py\nrest".toList)).isSome = true ∧
    reSearch ⟨['#'], ['#'], []⟩
      ("# Repository Map:\n# old\n# File: a.py\nrest".toList) =
      some ⟨0, 37, 37⟩ ∧
    ((applyUpdate ⟨['#'], ['#'], []⟩ "\\1".toList "a.py".toList
        ("# Repository Map:\n# old\n# File: a.py\nrest".toList)).getD []).length +
        (37 - 0) ≠
      ("# Repository Map:\n# old\n# File: a.py\nrest".toList).length +
        (encodeBlock ⟨['#'], ['#'], []⟩ "\\1".toList "a.py".toList).length := by
  decide

/-- **C8**.  The encoded block is passed to `re.subn` as a replacement
*template*: for content that already carries a map block and a tree text
containing a backslash-digit sequence, backreference expansion alters the
inserted text, so the result differs from inserting the same encoded
block literally. -/
theorem C8_template_expansion :
    ∃ (st : MStyle) (tree fname c r : Str),
      applyUpdate st tree fname c = some r ∧
      r ≠ applyLiteral st tree fname c := by
  refine ⟨⟨['#'], ['#'], []⟩, "\\1".toList, "a.py".toList,
    "# Repository Map:\n# old\n# File: a.py\nrest".toList,
    "# Repository Map:\n# # Repository Map:\n# old\n# File: a.py\n\n# File: a.py\nrest".toList,
    ?_, ?_⟩ <;> decide

/-- **C3** (amended).  No-op detection.  Part 1 (unconditional): a
candidate file that reaches the comparison is rewritten iff the newly
computed content differs from its current content, and the file's content
afterwards is the new content exactly when it differed.  Part 2 (the
two-runs scenario, amended): provided every file that gets rewritten
satisfies the template/delimiter/whitespace cleanness conditions
(`IdemReady`), the first run modifies `N = length(modified list)` files,
the second run modifies none, and every file rewritten by the first run
takes the `"No changes needed"` skip branch in the second.  As originally
stated — for every tree text — the scenario is false: a backslash in the
tree makes the second run rewrite again (see the counterexample). -/
theorem C3_noop_detection_amended :
    (∀ (tree : Str) (be : Bool) (f : PyFile) (ms : MState) (u : Str),
      shouldExcludeParts f.segs f.isFile (fileName f) = false → f.isFile = true →
      f.isBinary = false → f.readFails = false → f.writeFails = false →
      applyUpdate (styleOf f) tree (fileName f) f.content = some u →
      ((processOne tree be f ms).2.2 = true ↔ u ≠ f.content) ∧
      (processOne tree be f ms).1.content =
        (if u = f.content then f.content else u)) ∧
    (∀ (tree : Str) (be : Bool) (files : List PyFile) (ms : MState),
      (∀ f ∈ files, rewrites tree f = true → IdemReady tree f) →
      (updateFiles tree be files ms).2.1.files_modified =
        ms.files_modified + (updateFiles tree be files ms).2.2.length ∧
      (updateFiles tree be (updateFiles tree be files ms).1
        (updateFiles tree be files ms).2.1).2.2 = [] ∧
      (updateFiles tree be (updateFiles tree be files ms).1
        (updateFiles tree be files ms).2.1).2.1.files_modified =
        (updateFiles tree be files ms).2.1.files_modified ∧
      ∀ f ∈ files, rewrites tree f = true →
        skipNoChange tree (fileAfter tree be f) = true) := by
  constructor
  · intro tree be f ms u he hf hb hr hw happ
    rw [hf] at he
    rw [processOne]
    by_cases hu : u = f.content <;>
      simp [he, hf, hb, hr, hw, happ, hu]
  · intro tree be files ms hclean
    have hempty : (files.map (fileAfter tree be)).filter
        (fun f => rewrites tree f) = [] := by
      rw [List.filter_eq_nil_iff]
      intro g hg
      obtain ⟨f, hf, rfl⟩ := List.mem_map.mp hg
      simp [rewrites_after (hclean f hf)]
    refine ⟨?_, ?_, ?_, fun f hf hw => skip_after hw (hclean f hf hw)⟩
    · rw [updateFiles_modified, updateFiles_mods]
      simp
    · rw [updateFiles_mods, updateFiles_files, hempty]
      rfl
    · rw [updateFiles_modified, updateFiles_files, hempty]
      rfl

/-- Witness for C3: one clean `#`-style file, processed twice from a fresh
metrics state; the first run rewrites it, the second run skips it. -/
theorem C3_noop_detection_witness :
    (updateFiles ['t'] false
      [⟨["a.py".toList], true, false, false, false, false, none, ['x']⟩]
      ⟨0, 0, 0, 0⟩).2.1.files_modified = 1 ∧
    (updateFiles ['t'] false
      (updateFiles ['t'] false
        [⟨["a.py".toList], true, false, false, false, false, none, ['x']⟩]
        ⟨0, 0, 0, 0⟩).1
      (updateFiles ['t'] false
        [⟨["a.py".toList], true, false, false, false, false, none, ['x']⟩]
        ⟨0, 0, 0, 0⟩).2.1).2.2 = [] := by
  have h := (C3_noop_detection_amended).2 ['t'] false
    [⟨["a.py".toList], true, false, false, false, false, none, ['x']⟩] ⟨0, 0, 0, 0⟩
    (by
      intro f hf hw
      simp at hf
      subst hf
      refine ⟨uniqueFileMark_of_bounded _ _ _ (by decide), by decide, by decide, ?_⟩
      intro hc
      simp [styleOf, fileName] at hc
      revert hc
      decide)
  refine ⟨?_, h.2.1⟩
  rw [h.1]
  decide

/-- Counterexample to C3 as stated: with tree text `\1` the first run
rewrites the file and the second run rewrites it again (the template
backreference keeps changing the content), so `files_modified` is not `0`
on the second run. -/
theorem C3_noop_detection_cex :
    (updateFiles "\\1".toList false
      [⟨["a.py".toList], true, false, false, false, false, none, ['x']⟩]
      ⟨0, 0, 0, 0⟩).2.1.files_modified = 1 ∧
    (updateFiles "\\1".toList false
      (updateFiles "\\1".toList false
        [⟨["a.py".toList], true, false, false, false, false, none, ['x']⟩]
        ⟨0, 0, 0, 0⟩).1
      (updateFiles "\\1".toList false
        [⟨["a.py".toList], true, false, false, false, false, none, ['x']⟩]
        ⟨0, 0, 0, 0⟩).2.1).2.1.files_modified = 2 := by
  decide

/-- **C6** (amended).  Per-file error handling: a failure in a step
strictly before the write — a read failure or a template `re.error` —
leaves the file at its pre-run content, keeps the path out of the
returned modified-file list and counts one error.  The write itself is
NOT atomic: `open(filepath, 'w')` truncates the file before `f.write`
runs, so a write failure leaves the file holding a prefix `u.take k` of
the newly computed content `u` (the pre-run content only when `open`
itself raised), still unlisted and error-counted.  In every case the
final content is the pre-run content, the full update, or a prefix of
the full update; the original claim's "fully updated or left at pre-run
content on failure at any step" is refuted by the truncation — see the
counterexample. -/
theorem C6_per_file_atomicity_amended :
    ∀ (tree : Str) (be : Bool) (f : PyFile) (ms : MState),
      ((processOne tree be f ms).1.content = f.content ∨
        ∃ u, applyUpdate (styleOf f) tree (fileName f) f.content = some u ∧
          (processOne tree be f ms).1.content <+: u) ∧
      (shouldExcludeParts f.segs f.isFile (fileName f) = false → f.isFile = true →
        f.isBinary = false → f.readFails = true →
        (processOne tree be f ms).1.content = f.content ∧
        (processOne tree be f ms).2.2 = false ∧
        (processOne tree be f ms).2.1.errors =
          (if be && f.backupFails then ms.errors + 1 else ms.errors) + 1) ∧
      (shouldExcludeParts f.segs f.isFile (fileName f) = false → f.isFile = true →
        f.isBinary = false → f.readFails = false →
        applyUpdate (styleOf f) tree (fileName f) f.content = none →
        (processOne tree be f ms).1.content = f.content ∧
        (processOne tree be f ms).2.2 = false ∧
        (processOne tree be f ms).2.1.errors =
          (if be && f.backupFails then ms.errors + 1 else ms.errors) + 1) ∧
      (shouldExcludeParts f.segs f.isFile (fileName f) = false → f.isFile = true →
        f.isBinary = false → f.readFails = false → f.writeFails = true →
        ∀ u, applyUpdate (styleOf f) tree (fileName f) f.content = some u →
          u ≠ f.content →
          (processOne tree be f ms).1.content =
            (match f.written with | none => f.content | some k => u.take k) ∧
          (processOne tree be f ms).2.2 = false ∧
          (processOne tree be f ms).2.1.errors =
            (if be && f.backupFails then ms.errors + 1 else ms.errors) + 1) := by
  intro tree be f ms
  refine ⟨?_, ?_, ?_, ?_⟩
  · rw [processOne]
    repeat' split
    all_goals try (left; rfl)
    all_goals right
    all_goals refine ⟨_, by assumption, ?_⟩
    all_goals first
      | exact List.prefix_refl _
      | exact List.take_prefix _ _
  · intro he hf hb hr
    rw [hf] at he
    rw [processOne]
    simp [he, hf, hb, hr]
    split <;> rfl
  · intro he hf hb hr happ
    rw [hf] at he
    rw [processOne]
    simp [he, hf, hb, hr, happ]
    split <;> rfl
  · intro he hf hb hr hw u happ hu
    rw [hf] at he
    rw [processOne]
    simp [he, hf, hb, hr, hw, happ, hu]
    all_goals split <;> rfl

/-- Witness for C6: a concrete file whose read fails is left untouched,
unlisted and counted as an error. -/
theorem C6_per_file_atomicity_witness :
    (processOne ['t'] false
      ⟨["a.py".toList], true, false, false, true, false, none, ['x']⟩
      ⟨0, 0, 0, 0⟩).1.content = ['x'] ∧
    (processOne ['t'] false
      ⟨["a.py".toList], true, false, false, true, false, none, ['x']⟩
      ⟨0, 0, 0, 0⟩).2.2 = false ∧
    (processOne ['t'] false
      ⟨["a.py".toList], true, false, false, true, false, none, ['x']⟩
      ⟨0, 0, 0, 0⟩).2.1.errors = 1 := by
  have h := (C6_per_file_atomicity_amended ['t'] false
    ⟨["a.py".toList], true, false, false, true, false, none, ['x']⟩ ⟨0, 0, 0, 0⟩).2.1
    (by decide) (by decide) (by decide) (by decide)
  exact ⟨h.1, h.2.1, h.2.2⟩

/-- Counterexample to C6 as stated: a write failure is not atomic.  With
`open` having truncated and zero characters persisted, the file ends
empty — neither its pre-run content `"x"` nor the fully computed
update. -/
theorem C6_per_file_atomicity_cex :
    (processOne ['t'] false
      ⟨["a.py".toList], true, false, false, false, true, some 0, ['x']⟩
      ⟨0, 0, 0, 0⟩).1.content = [] ∧
    applyUpdate
        (styleOf ⟨["a.py".toList], true, false, false, false, true, some 0, ['x']⟩)
        ['t']
        (fileName ⟨["a.py".toList], true, false, false, false, true, some 0, ['x']⟩)
        ['x'] =
      some (encodeBlock ⟨['#'], ['#'], []⟩ ['t'] "a.py".toList ++ ['x']) ∧
    ([] : Str) ≠ ['x'] ∧
    ([] : Str) ≠ encodeBlock ⟨['#'], ['#'], []⟩ ['t'] "a.py".toList ++ ['x'] := by
  decide

/-- **C10**.  Consistency of the modified-file report: `files_modified`
grows by exactly the length of the returned list; a path is in the list
iff some input file with that path was actually rewritten with changed
content (`rewrites` is precisely the write-branch condition of the loop);
and when the walked paths are distinct, each rewritten file appears
exactly once. -/
theorem C10_modified_report :
    ∀ (tree : Str) (be : Bool) (files : List PyFile) (ms : MState),
      (updateFiles tree be files ms).2.1.files_modified =
        ms.files_modified + (updateFiles tree be files ms).2.2.length ∧
      (∀ p, p ∈ (updateFiles tree be files ms).2.2 ↔
        ∃ f ∈ files, f.segs = p ∧ rewrites tree f = true) ∧
      ((files.map (fun f => f.segs)).Nodup →
        (updateFiles tree be files ms).2.2.Nodup) := by
  intro tree be files ms
  refine ⟨?_, ?_, ?_⟩
  · rw [updateFiles_modified, updateFiles_mods]
    simp
  · intro p
    rw [updateFiles_mods]
    simp only [List.mem_map, List.mem_filter]
    constructor
    · rintro ⟨f, ⟨hf, hw⟩, rfl⟩
      exact ⟨f, hf, rfl, hw⟩
    · rintro ⟨f, hf, rfl, hw⟩
      exact ⟨f, ⟨hf, hw⟩, rfl⟩
  · intro hnd
    rw [updateFiles_mods]
    have hsub : List.Sublist
        ((files.filter (fun f => rewrites tree f)).map (fun f => f.segs))
        (files.map (fun f => f.segs)) :=
      (List.filter_sublist files).map (fun f => f.segs)
    exact hnd.sublist hsub

/-- Witness for C10: a two-file run (one rewritten, one binary-skipped)
reports exactly the rewritten path, once. -/
theorem C10_modified_report_witness :
    (updateFiles ['t'] false
      [⟨["a.py".toList], true, false, false, false, false, none, ['x']⟩,
       ⟨["b.py".toList], true, true, false, false, false, none, ['y']⟩]
      ⟨0, 0, 0, 0⟩).2.2.Nodup ∧
    (updateFiles ['t'] false
      [⟨["a.py".toList], true, false, false, false, false, none, ['x']⟩,
       ⟨["b.py".toList], true, true, false, false, false, none, ['y']⟩]
      ⟨0, 0, 0, 0⟩).2.1.files_modified =
      (updateFiles ['t'] false
        [⟨["a.py".toList], true, false, false, false, false, none, ['x']⟩,
         ⟨["b.py".toList], true, true, false, false, false, none, ['y']⟩]
        ⟨0, 0, 0, 0⟩).2.2.length := by
  have h := C10_modified_report ['t'] false
    [⟨["a.py".toList], true, false, false, false, false, none, ['x']⟩,
     ⟨["b.py".toList], true, true, false, false, false, none, ['y']⟩] ⟨0, 0, 0, 0⟩
  refine ⟨h.2.2 (by decide), ?_⟩
  rw [h.1]
  simp

/-- **C4**.  Exclusion-filter semantics: for a path that is relative to
the root (the only situation in which `relative_to`, and hence
`should_exclude`, is defined — see C5), the filter returns `true` iff
some relative segment case-insensitively glob-matches a
directory-exclusion pattern, or the path is a file whose base name
case-insensitively glob-matches a file-exclusion pattern; directories are
never tested against the file globs, and both pattern and candidate are
lowercased before glob matching. -/
theorem C4_exclusion_semantics :
    ∀ (path root : List Str) (isF : Bool), root.isPrefixOf path = true →
      ∃ b, should_exclude path root isF = some b ∧
        (b = true ↔
          (∃ seg ∈ path.drop root.length, ∃ pat ∈ EXCLUDE_DIRS,
            globMatch (lowerStr pat) (lowerStr seg) = true) ∨
          (isF = true ∧ ∃ pat ∈ EXCLUDE_FILES,
            globMatch (lowerStr pat) (lowerStr (pathName path)) = true)) := by
  intro path root isF h
  refine ⟨shouldExcludeParts (path.drop root.length) isF (pathName path), ?_, ?_⟩
  · rw [should_exclude, h]
    simp
  · rw [shouldExcludeParts]
    simp [fnmatchLower, List.any_eq_true]
    try tauto

/-- Witness for C4: a file whose name matches `*.png` under an included
directory is excluded. -/
theorem C4_exclusion_semantics_witness :
    should_exclude ["repo".toList, "img.PNG".toList] ["repo".toList] true =
      some true := by
  obtain ⟨b, hb, hiff⟩ := C4_exclusion_semantics
    ["repo".toList, "img.PNG".toList] ["repo".toList] true (by decide)
  have hbt : b = true := hiff.mpr (Or.inr ⟨rfl, "*.png".toList, by decide, by decide⟩)
  rw [hbt] at hb
  exact hb

/-- **C5** (amended).  The filter is a pure predicate and never raises *on
the inputs it is actually applied to*: for every path having the root as
a prefix it returns a boolean.  As originally stated — total over *all*
inputs — the claim is false: `path.relative_to(root)` raises `ValueError`
whenever the root is not a prefix of the path (see the counterexample);
no caller of `should_exclude` passes such a pair. -/
theorem C5_filter_totality_amended :
    ∀ (path root : List Str) (isF : Bool), root.isPrefixOf path = true →
      (should_exclude path root isF).isSome = true := by
  intro path root isF h
  rw [should_exclude, h]
  simp

/-- Witness for C5: a concrete in-root path. -/
theorem C5_filter_totality_witness :
    (should_exclude ["repo".toList, "main.py".toList] ["repo".toList]
      true).isSome = true :=
  C5_filter_totality_amended ["repo".toList, "main.py".toList]
    ["repo".toList] true (by decide)

/-- Counterexample to C5 as stated: a path that is not under the root
makes `relative_to` raise (modelled as `none`), so filtering is not total
over all inputs. -/
theorem C5_filter_totality_cex :
    should_exclude ["a".toList] ["b".toList] true = none := by
  decide

theorem take_length_takeWhile {α : Type} (p : α → Bool) (l : List α) :
    l.take (l.takeWhile p).length = l.takeWhile p := by
  induction l with
  | nil => rfl
  | cons a t ih =>
    by_cases hp : p a
    · simp [List.takeWhile_cons, hp, ih]
    · simp [List.takeWhile_cons, hp]

theorem trailingRunLen_le (tree : List Str) :
    trailingRunLen tree ≤ tree.length := by
  rw [trailingRunLen]
  calc (tree.reverse.takeWhile (fun l => connector.isPrefixOf l)).length
      ≤ tree.reverse.length := (List.takeWhile_prefix _).length_le
    _ = tree.length := List.length_reverse _

theorem normalizeTrailing_eq (tree : List Str) (h : tree.length > 1) :
    normalizeTrailing tree =
      tree.take (tree.length - trailingRunLen tree) ++
      ((tree.drop (tree.length - trailingRunLen tree)).enum.map
        (fun p => indentSpaces (4 * p.1) ++ connector ++
          p.2.drop connector.length)).reverse := by
  rw [normalizeTrailing, if_pos h]

/-- **C9** (amended).  The trailing-connector pass preserves the number of
lines and touches only the maximal trailing run of lines that start with
`'└── '` at zero indentation — but it writes the `i`-th line of that run
(counting from the start of the run) to the `i`-th slot *from the end*,
with indentation `4*i`: the run is reversed in place.  The original
claim's in-place reading (the `i`-th line of the run keeps its text and
gains indentation `4*i`) is false for runs of length ≥ 2; see the
counterexample. -/
theorem C9_trailing_normalization_amended :
    ∀ (tree : List Str), tree.length > 1 →
      (normalizeTrailing tree).length = tree.length ∧
      (∀ p, p < tree.length - trailingRunLen tree →
        (normalizeTrailing tree).getD p [] = tree.getD p []) ∧
      (∀ i, i < trailingRunLen tree →
        (normalizeTrailing tree).getD (tree.length - 1 - i) [] =
          indentSpaces (4 * i) ++ connector ++
            (tree.getD (tree.length - trailingRunLen tree + i) []).drop
              connector.length) ∧
      (∀ i, i < trailingRunLen tree →
        connector.isPrefixOf
          (tree.getD (tree.length - trailingRunLen tree + i) []) = true) := by
  intro tree hgt
  have hr := trailingRunLen_le tree
  set n := tree.length with hn
  set r := trailingRunLen tree with hrdef
  have hkeep : (tree.take (n - r)).length = n - r := by
    rw [List.length_take]
    omega
  have hrunlen : (tree.drop (n - r)).length = r := by
    rw [List.length_drop]
    omega
  have hmaplen : ((tree.drop (n - r)).enum.map
      (fun p => indentSpaces (4 * p.1) ++ connector ++
        p.2.drop connector.length)).length = r := by
    rw [List.length_map, List.enum_length, hrunlen]
  refine ⟨?_, ?_, ?_, ?_⟩
  · rw [normalizeTrailing_eq tree hgt]
    rw [List.length_append, hkeep, List.length_reverse, hmaplen]
    omega
  · intro p hp
    rw [normalizeTrailing_eq tree hgt, List.getD_eq_getElem?_getD,
      List.getD_eq_getElem?_getD, List.getElem?_append]
    rw [if_pos (by rw [hkeep]; exact hp)]
    rw [List.getElem?_take, if_pos hp]
  · intro i hi
    rw [normalizeTrailing_eq tree hgt, List.getD_eq_getElem?_getD,
      List.getD_eq_getElem?_getD]
    rw [List.getElem?_append_right (by rw [hkeep]; omega)]
    rw [hkeep]
    have hidx : n - 1 - i - (n - r) = r - 1 - i := by omega
    rw [hidx]
    rw [List.getElem?_reverse (by rw [hmaplen]; omega)]
    rw [hmaplen]
    have hidx2 : r - 1 - (r - 1 - i) = i := by omega
    rw [hidx2]
    rw [List.getElem?_map]
    have hienum : i < (tree.drop (n - r)).enum.length := by
      rw [List.enum_length, hrunlen]
      omega
    rw [List.getElem?_eq_getElem hienum, List.getElem_enum]
    have hidrop : i < (tree.drop (n - r)).length := by omega
    have hdropi : (tree.drop (n - r))[i] = tree.getD (n - r + i) [] := by
      have h1 : (tree.drop (n - r))[i]? = tree[n - r + i]? := List.getElem?_drop _ _ _
      rw [List.getElem?_eq_getElem hidrop] at h1
      rw [List.getD_eq_getElem?_getD, ← h1]
      rfl
    simp [hdropi]
  · intro i hi
    have hrevlen : tree.reverse.length = n := List.length_reverse _
    have htw : (tree.reverse.takeWhile (fun l => connector.isPrefixOf l)).length = r := by
      rw [hrdef, trailingRunLen]
    have hlt : n - r + i < n := by omega
    have h1 : tree[n - r + i]? = tree.reverse[n - 1 - (n - r + i)]? := by
      have := List.getElem?_reverse (l := tree.reverse) (i := n - r + i)
        (by rw [hrevlen]; omega)
      rw [List.reverse_reverse] at this
      rw [this, hrevlen]
    have hq : n - 1 - (n - r + i) = r - 1 - i := by omega
    rw [hq] at h1
    have h2 : tree.reverse[r - 1 - i]? =
        (tree.reverse.takeWhile (fun l => connector.isPrefixOf l))[r - 1 - i]? := by
      symm
      conv_lhs => rw [← take_length_takeWhile (fun l => connector.isPrefixOf l) tree.reverse]
      rw [htw, List.getElem?_take, if_pos (by omega)]
    have h3 : r - 1 - i < (tree.reverse.takeWhile (fun l => connector.isPrefixOf l)).length := by
      rw [htw]
      omega
    rw [List.getElem?_eq_getElem h3] at h2
    have hmem := List.getElem_mem h3
    have hpred := List.mem_takeWhile_imp hmem
    rw [List.getD_eq_getElem?_getD, h1, h2]
    exact hpred

/-- Witness for C9: the three-line example, checked against the theorem's
positional description. -/
theorem C9_trailing_normalization_witness :
    (normalizeTrailing ["a/".toList, "└── x".toList, "└── y".toList]).length = 3 ∧
    (normalizeTrailing ["a/".toList, "└── x".toList, "└── y".toList]).getD 0 [] =
      "a/".toList := by
  have h := C9_trailing_normalization_amended
    ["a/".toList, "└── x".toList, "└── y".toList] (by decide)
  refine ⟨h.1, ?_⟩
  have h2 := h.2.1 0 (by decide)
  rw [h2]
  rfl

/-- Counterexample to C9 as stated: on a run of two trailing `'└── '`
lines the pass reverses them — the middle line's text after the connector
becomes `y`, not the in-place `x` with added indentation. -/
theorem C9_trailing_normalization_cex :
    normalizeTrailing ["a/".toList, "└── x".toList, "└── y".toList] =
      ["a/".toList, "    └── y".toList, "└── x".toList] ∧
    normalizeTrailing ["a/".toList, "└── x".toList, "└── y".toList] ≠
      ["a/".toList, "└── x".toList, "    └── y".toList] := by
  decide

/-!
## Backup fallback naming and the MD5 digest (claim C7)
-/

theorem wordLE_lt {w b : Nat} (h : b ∈ wordLE w) : b < 256 := by
  simp [wordLE] at h
  rcases h with rfl | rfl | rfl | rfl <;> exact Nat.mod_lt _ (by norm_num)

theorem md5Bytes_length (msg : List Nat) : (md5Bytes msg).length = 16 := by
  simp [md5Bytes, wordLE]

theorem md5Bytes_lt {msg : List Nat} : ∀ b ∈ md5Bytes msg, b < 256 := by
  intro b hb
  rw [md5Bytes] at hb
  simp only [List.mem_append] at hb
  rcases hb with ((h | h) | h) | h <;> exact wordLE_lt h

theorem byteHex_flat_length (l : List Nat) :
    ((l.map byteHex).flatten).length = 2 * l.length := by
  induction l with
  | nil => rfl
  | cons a t ih => simp [byteHex, ih]; omega

theorem md5Hex_length (msg : List Nat) : (md5Hex msg).length = 32 := by
  rw [md5Hex, byteHex_flat_length, md5Bytes_length]

theorem foldl_byte_lt : ∀ (l : List Nat) (a : Nat), (∀ b ∈ l, b < 256) →
    l.foldl (fun x b => 256 * x + b) a < 256 ^ l.length * (a + 1) := by
  intro l
  induction l with
  | nil => intro a _; simpa using Nat.lt_succ_self a
  | cons b t ih =>
    intro a h
    have hb : b < 256 := h b (List.mem_cons_self _ _)
    have hstep := ih (256 * a + b) (fun x hx => h x (List.mem_cons_of_mem _ hx))
    calc (b :: t).foldl (fun x y => 256 * x + y) a
        = t.foldl (fun x y => 256 * x + y) (256 * a + b) := rfl
      _ < 256 ^ t.length * (256 * a + b + 1) := hstep
      _ ≤ 256 ^ t.length * (256 * (a + 1)) := Nat.mul_le_mul_left _ (by omega)
      _ = 256 ^ (b :: t).length * (a + 1) := by rw [List.length_cons]; ring

theorem bytesToNat_lt {l : List Nat} (h : ∀ b ∈ l, b < 256) :
    bytesToNat l < 256 ^ l.length := by
  have := foldl_byte_lt l 0 h
  simpa [bytesToNat] using this

theorem foldl_byte_inj : ∀ (l1 l2 : List Nat) (a1 a2 : Nat),
    l1.length = l2.length → (∀ b ∈ l1, b < 256) → (∀ b ∈ l2, b < 256) →
    l1.foldl (fun x b => 256 * x + b) a1 = l2.foldl (fun x b => 256 * x + b) a2 →
    a1 = a2 ∧ l1 = l2 := by
  intro l1
  induction l1 with
  | nil =>
    intro l2 a1 a2 hlen _ _ heq
    have h2 : l2 = [] := List.eq_nil_of_length_eq_zero hlen.symm
    subst h2
    exact ⟨heq, rfl⟩
  | cons b1 t1 ih =>
    intro l2 a1 a2 hlen h1 h2 heq
    cases l2 with
    | nil => simp at hlen
    | cons b2 t2 =>
      have hlen2 : t1.length = t2.length := by simpa using hlen
      have heq2 : t1.foldl (fun x b => 256 * x + b) (256 * a1 + b1) =
          t2.foldl (fun x b => 256 * x + b) (256 * a2 + b2) := heq
      obtain ⟨hacc, ht⟩ := ih t2 (256 * a1 + b1) (256 * a2 + b2) hlen2
        (fun x hx => h1 x (List.mem_cons_of_mem _ hx))
        (fun x hx => h2 x (List.mem_cons_of_mem _ hx)) heq2
      have hb1 : b1 < 256 := h1 b1 (List.mem_cons_self _ _)
      have hb2 : b2 < 256 := h2 b2 (List.mem_cons_self _ _)
      have hab : a1 = a2 ∧ b1 = b2 := by omega
      exact ⟨hab.1, by rw [hab.2, ht]⟩

theorem md5Bytes_inj_of_val {m1 m2 : List Nat}
    (h : bytesToNat (md5Bytes m1) = bytesToNat (md5Bytes m2)) :
    md5Bytes m1 = md5Bytes m2 := by
  rw [bytesToNat, bytesToNat] at h
  exact (foldl_byte_inj (md5Bytes m1) (md5Bytes m2) 0 0
    (by rw [md5Bytes_length, md5Bytes_length]) md5Bytes_lt md5Bytes_lt h).2

theorem containsSub_false {a : Char} {pat hay : Str} (h : a ∉ hay) :
    containsSub (a :: pat) hay = false := by
  rw [containsSub]
  cases hf : firstIdxFrom (fun i => isPrefixAt (a :: pat) hay i) 0 (hay.length + 1) with
  | none => rfl
  | some i =>
    obtain ⟨_, _, hp, _⟩ := firstIdxFrom_eq_some hf
    exact absurd (isPrefixAt_head_mem hp) h

theorem any_replicate_false {α : Type} {a : α} {f : α → Bool} (h : f a = false) :
    ∀ n, (List.replicate n a).any f = false := by
  intro n
  induction n with
  | zero => rfl
  | succ m ih => simp [List.replicate_succ, h, ih]

theorem getLastD_replicate_succ {α : Type} (a d : α) (m : Nat) :
    (List.replicate (m + 1) a).getLastD d = a := by
  induction m generalizing d with
  | zero => rfl
  | succ k ih =>
    rw [List.replicate_succ, List.getLastD_cons]
    exact ih a

theorem length_flatten_replicate {α : Type} (m : Nat) (l : List α) :
    (List.flatten (List.replicate m l)).length = m * l.length := by
  induction m with
  | zero => simp
  | succ k ih =>
    rw [List.replicate_succ, List.flatten_cons, List.length_append, ih, Nat.succ_mul]
    omega

theorem backupDest_fallback {f backup_dir startpath : List Str} {b : Bool}
    (hp : startpath.isPrefixOf f = true)
    (hc : containsSub ".tree_map_backup".toList (strOfPath f) = false)
    (he : (should_exclude f startpath b).getD true = false)
    (hl : (strOfPath (backup_dir ++ f.drop startpath.length)).length > MAX_PATH_LENGTH) :
    backupDest f backup_dir startpath b =
      some (backup_dir ++ [md5Hex (utf8 (strOfPath f)) ++ pySuffix (pathName f)]) := by
  rw [backupDest]
  simp only [hp, if_true, hc, he]
  simp only [Bool.false_eq_true, if_false]
  rw [if_pos hl]

theorem qPath_no_dot (n : Nat) : '.' ∉ strOfPath (qPath n) := by
  intro hmem
  rw [qPath, strOfPath] at hmem
  simp only [List.map_cons, List.map_replicate, List.flatten_cons, List.mem_append,
    List.mem_flatten, List.mem_replicate] at hmem
  rcases hmem with h | ⟨l, ⟨_, rfl⟩, hl⟩
  · exact absurd h (by decide)
  · exact absurd hl (by decide)

theorem qPath_name (n : Nat) : pathName (qPath n) = ['q'] := by
  rw [qPath, pathName, List.getLastD_cons]
  have h301 : 301 + n = (300 + n) + 1 := by omega
  rw [h301, getLastD_replicate_succ]

theorem qPath_not_excluded (n : Nat) :
    (should_exclude (qPath n) [['r']] true).getD true = false := by
  have hname := qPath_name n
  rw [qPath] at hname
  have hp : [['r']].isPrefixOf (['r'] :: List.replicate (301 + n) ['q']) = true :=
    List.isPrefixOf_iff_prefix.mpr ⟨List.replicate (301 + n) ['q'], rfl⟩
  rw [qPath, should_exclude, if_pos hp]
  rw [Option.getD_some]
  have hdrop : (['r'] :: List.replicate (301 + n) ['q']).drop ([['r']] : List Str).length =
      List.replicate (301 + n) ['q'] := rfl
  rw [hdrop, hname, shouldExcludeParts]
  have hAny : (List.replicate (301 + n) (['q'] : Str)).any
      (fun part => EXCLUDE_DIRS.any (fun pat => fnmatchLower pat part)) = false :=
    any_replicate_false (by decide) _
  rw [hAny]
  decide

theorem qPlanned_len (n : Nat) :
    (strOfPath (([['b']] : List Str) ++ List.replicate (301 + n) ['q'])).length >
      MAX_PATH_LENGTH := by
  rw [strOfPath]
  have hc : (([['b']] : List Str) ++ List.replicate (301 + n) ['q']) =
      ['b'] :: List.replicate (301 + n) ['q'] := rfl
  rw [hc]
  simp only [List.map_cons, List.map_replicate, List.flatten_cons, List.length_append,
    length_flatten_replicate, List.length_cons, MAX_PATH_LENGTH]
  simp
  omega

theorem qPath_backup (n : Nat) :
    backupDest (qPath n) [['b']] [['r']] true =
      some (([['b']] : List Str) ++ [md5Hex (utf8 (strOfPath (qPath n)))]) := by
  have hp : List.isPrefixOf [['r']] (qPath n) = true := by
    rw [qPath]
    exact List.isPrefixOf_iff_prefix.mpr ⟨List.replicate (301 + n) ['q'], rfl⟩
  have hc : containsSub ".tree_map_backup".toList (strOfPath (qPath n)) = false := by
    have h0 : ".tree_map_backup".toList = '.' :: "tree_map_backup".toList := rfl
    rw [h0]
    exact containsSub_false (qPath_no_dot n)
  have he := qPath_not_excluded n
  have hl : (strOfPath (([['b']] : List Str) ++
      (qPath n).drop ([['r']] : List Str).length)).length > MAX_PATH_LENGTH := by
    rw [qPath]
    exact qPlanned_len n
  have h := backupDest_fallback hp hc he hl
  rw [h]
  have hsuf : pySuffix (pathName (qPath n)) = [] := by rw [qPath_name]; rfl
  rw [hsuf, List.append_nil]

theorem qPath_ne {n m : Nat} (h : n ≠ m) : qPath n ≠ qPath m := by
  intro he
  rw [qPath, qPath] at he
  simp only [List.cons.injEq] at he
  have hlen := congrArg List.length he.2
  simp only [List.length_replicate] at hlen
  omega

/-- **C7** (amended).  When the planned backup destination
(`backup_dir` joined with the path relative to the project root) exceeds
`MAX_PATH_LENGTH`, the destination is placed directly under `backup_dir`,
named by the MD5 hex digest of the original absolute path string with the
original extension appended — and two such fallback destinations differ
*provided the two digests differ*.  The claim's unconditional
injectivity ("for any two distinct original absolute paths ... the
digest-based fallback destinations differ") is false: the digest space
is finite, so distinct paths with colliding digests exist (see the
counterexample). -/
theorem C7_backup_fallback_amended
    (f1 f2 backup_dir startpath : List Str) (b1 b2 : Bool)
    (h1p : List.isPrefixOf startpath f1 = true)
    (h1c : containsSub ".tree_map_backup".toList (strOfPath f1) = false)
    (h1e : (should_exclude f1 startpath b1).getD true = false)
    (h1l : (strOfPath (backup_dir ++ f1.drop startpath.length)).length > MAX_PATH_LENGTH) :
    backupDest f1 backup_dir startpath b1 =
      some (backup_dir ++ [md5Hex (utf8 (strOfPath f1)) ++ pySuffix (pathName f1)]) ∧
    (List.isPrefixOf startpath f2 = true →
      containsSub ".tree_map_backup".toList (strOfPath f2) = false →
      (should_exclude f2 startpath b2).getD true = false →
      (strOfPath (backup_dir ++ f2.drop startpath.length)).length > MAX_PATH_LENGTH →
      md5Hex (utf8 (strOfPath f1)) ≠ md5Hex (utf8 (strOfPath f2)) →
      backupDest f1 backup_dir startpath b1 ≠ backupDest f2 backup_dir startpath b2) := by
  refine ⟨backupDest_fallback h1p h1c h1e h1l, ?_⟩
  intro h2p h2c h2e h2l hdig heq
  rw [backupDest_fallback h1p h1c h1e h1l, backupDest_fallback h2p h2c h2e h2l] at heq
  have h1 := List.append_cancel_left (Option.some.inj heq)
  have h2 : md5Hex (utf8 (strOfPath f1)) ++ pySuffix (pathName f1) =
      md5Hex (utf8 (strOfPath f2)) ++ pySuffix (pathName f2) := by
    simpa using h1
  exact hdig (List.append_inj h2 (by rw [md5Hex_length, md5Hex_length])).1

set_option maxRecDepth 10000 in
/-- Witness for C7: a 300-character backup directory forces the fallback
for `/p/one.txt` and `/p/two.txt`, whose digests differ, so their
fallback destinations differ. -/
theorem C7_backup_fallback_witness :
    backupDest ["p".toList, "one.txt".toList] [List.replicate 300 'b'] ["p".toList] true =
      some ([List.replicate 300 'b'] ++
        [md5Hex (utf8 (strOfPath ["p".toList, "one.txt".toList])) ++
          pySuffix (pathName ["p".toList, "one.txt".toList])]) ∧
    backupDest ["p".toList, "one.txt".toList] [List.replicate 300 'b'] ["p".toList] true ≠
      backupDest ["p".toList, "two.txt".toList] [List.replicate 300 'b'] ["p".toList] true := by
  have h := C7_backup_fallback_amended ["p".toList, "one.txt".toList]
    ["p".toList, "two.txt".toList] [List.replicate 300 'b'] ["p".toList] true true
    (by decide) (by decide) (by decide) (by decide)
  exact ⟨h.1, h.2 (by decide) (by decide) (by decide) (by decide) (by decide)⟩

/-- Counterexample to C7 as stated: fallback destinations are not
injective on distinct original paths.  The digest has 16 bytes, so the
infinite family `qPath` must contain two distinct paths whose digests —
and hence whose fallback destinations — coincide (pigeonhole; the
colliding pair is obtained nonconstructively). -/
theorem C7_backup_fallback_cex :
    ¬ (∀ (f1 f2 backup_dir startpath : List Str) (b : Bool) (d1 d2 : List Str),
        backupDest f1 backup_dir startpath b = some d1 →
        backupDest f2 backup_dir startpath b = some d2 →
        (strOfPath (backup_dir ++ f1.drop startpath.length)).length > MAX_PATH_LENGTH →
        (strOfPath (backup_dir ++ f2.drop startpath.length)).length > MAX_PATH_LENGTH →
        f1 ≠ f2 → d1 ≠ d2) := by
  intro hclaim
  have hbound : ∀ k : Nat, bytesToNat (md5Bytes (utf8 (strOfPath (qPath k)))) < 256 ^ 16 := by
    intro k
    have h := @bytesToNat_lt (md5Bytes (utf8 (strOfPath (qPath k)))) md5Bytes_lt
    rwa [md5Bytes_length] at h
  obtain ⟨n, m, hnm, hF⟩ := Finite.exists_ne_map_eq_of_infinite
    (fun k : Nat =>
      (⟨bytesToNat (md5Bytes (utf8 (strOfPath (qPath k)))), hbound k⟩ : Fin (256 ^ 16)))
  have hval : bytesToNat (md5Bytes (utf8 (strOfPath (qPath n)))) =
      bytesToNat (md5Bytes (utf8 (strOfPath (qPath m)))) := by
    simpa using congrArg Fin.val hF
  have hbytes := md5Bytes_inj_of_val hval
  have hhex : md5Hex (utf8 (strOfPath (qPath n))) = md5Hex (utf8 (strOfPath (qPath m))) := by
    rw [md5Hex, md5Hex, hbytes]
  have hl1 : (strOfPath (([['b']] : List Str) ++
      (qPath n).drop ([['r']] : List Str).length)).length > MAX_PATH_LENGTH := by
    rw [qPath]
    exact qPlanned_len n
  have hl2 : (strOfPath (([['b']] : List Str) ++
      (qPath m).drop ([['r']] : List Str).length)).length > MAX_PATH_LENGTH := by
    rw [qPath]
    exact qPlanned_len m
  exact hclaim (qPath n) (qPath m) [['b']] [['r']] true _ _
    (qPath_backup n) (qPath_backup m) hl1 hl2 (qPath_ne hnm) (by rw [hhex])
